import Mathlib

/-!
Verification of the JSON <-> Excel converter (`json_excel_converter.py`).

The development shallowly embeds the converter:

* `JVal` is the JSON tree handled by the converter: a mapping (modelled as an
  association list in insertion order, mirroring Python's ordered dicts),
  a list of scalar leaves, or a bare scalar.  Scalars are `Option String`
  (`none` models JSON `null` / Python `None`); richer scalar types add
  nothing to the control flow being verified.
* `Cell` is the value stored in one spreadsheet cell / one tuple slot of a
  flattened row: a scalar, the absent value (`None`/`NaN`), or the empty
  Python list that `_flatten_dict`'s `else` branch appends verbatim.
* Fallible Python code (unhandled `ValueError`/`TypeError`, `max()` on an
  empty sequence, numpy's ambiguous-truth error) is modelled with `Option` /
  `Except PyErr`.

Every definition is executable and compiled with structural recursion so
that concrete runs reduce by `rfl`/`decide`.
-/

/-- Scalar leaf values: `some s` is a scalar, `none` is JSON `null`. -/
abbrev Scalar := Option String

/-- JSON trees as the converter sees them: nested string-keyed mappings whose
leaves are lists of scalars or bare scalars.  Mappings keep insertion order,
like Python dicts. -/
inductive JVal where
  | dict : List (String × JVal) → JVal
  | arr : List Scalar → JVal
  | leaf : Scalar → JVal
deriving Repr

mutual

def jvalBeq : JVal → JVal → Bool
  | JVal.dict kvs, JVal.dict kvs' => jvalBeqEntries kvs kvs'
  | JVal.arr xs, JVal.arr ys => xs == ys
  | JVal.leaf s, JVal.leaf t => s == t
  | _, _ => false

def jvalBeqEntries : List (String × JVal) → List (String × JVal) → Bool
  | [], [] => true
  | (k, v) :: r, (k', v') :: r' => k == k' && jvalBeq v v' && jvalBeqEntries r r'
  | _, _ => false

end

mutual

theorem jvalBeq_iff : ∀ a b : JVal, jvalBeq a b = true ↔ a = b
  | JVal.dict kvs, JVal.dict kvs' => by
    simp only [jvalBeq, JVal.dict.injEq]
    exact jvalBeqEntries_iff kvs kvs'
  | JVal.arr xs, JVal.arr ys => by simp [jvalBeq]
  | JVal.leaf s, JVal.leaf t => by simp [jvalBeq]
  | JVal.dict _, JVal.arr _ => by simp [jvalBeq]
  | JVal.dict _, JVal.leaf _ => by simp [jvalBeq]
  | JVal.arr _, JVal.dict _ => by simp [jvalBeq]
  | JVal.arr _, JVal.leaf _ => by simp [jvalBeq]
  | JVal.leaf _, JVal.dict _ => by simp [jvalBeq]
  | JVal.leaf _, JVal.arr _ => by simp [jvalBeq]

theorem jvalBeqEntries_iff : ∀ xs ys : List (String × JVal),
    jvalBeqEntries xs ys = true ↔ xs = ys
  | [], [] => by simp [jvalBeqEntries]
  | (k, v) :: r, (k', v') :: r' => by
    simp only [jvalBeqEntries, Bool.and_eq_true, beq_iff_eq, List.cons.injEq, Prod.mk.injEq]
    rw [jvalBeq_iff v v', jvalBeqEntries_iff r r']
  | [], (_, _) :: _ => by simp [jvalBeqEntries]
  | (_, _) :: _, [] => by simp [jvalBeqEntries]

end

instance : DecidableEq JVal := fun a b => decidable_of_iff (jvalBeq a b = true) (jvalBeq_iff a b)

/-- Value held in one slot of a flattened row / one spreadsheet cell.
`null` covers Python `None` and pandas `NaN` (an absent / blank cell);
`elist` is the empty Python list that `_flatten_dict` appends as a terminal
value when a key maps to `[]`. -/
inductive Cell where
  | str : String → Cell
  | null : Cell
  | elist : Cell
deriving DecidableEq, Repr

/-- How a scalar appears as a row/cell value. -/
def cellOfScalar : Scalar → Cell
  | some s => Cell.str s
  | none => Cell.null

/-- Truth value of `pd.notna(cell)` as the Python code uses it in an `if`:
`None`/`NaN` are falsy; `pd.notna([])` is an empty numpy array, which is
falsy in a condition. -/
def cellNotna : Cell → Bool
  | Cell.str _ => true
  | Cell.null => false
  | Cell.elist => false

/-- Boolean duplicate-freedom test (used to state hypotheses executably). -/
def nodupB {α : Type} [DecidableEq α] : List α → Bool
  | [] => true
  | a :: as => !(decide (a ∈ as)) && nodupB as

theorem nodupB_iff_nodup {α : Type} [DecidableEq α] (l : List α) :
    nodupB l = true ↔ l.Nodup := by
  induction l with
  | nil => simp [nodupB]
  | cons a as ih => simp [nodupB, List.nodup_cons, ih]

/-! ## `_flatten_dict` (json_excel_converter.py lines 103-123)

```python
rows = []
for k, v in d.items():
    if isinstance(v, dict):
        rows.extend(self._flatten_dict(v, parent_key + (k,)))
    elif isinstance(v, list) and v:  # Only process non-empty lists
        for item in v:
            rows.append(parent_key + (k, item))
    else:
        rows.append(parent_key + (k, v))
return rows
```

Note that an *empty* list `v` fails the `elif` guard (`and v`) and therefore
falls through to the `else` branch, which appends one row whose terminal
value is the empty list object itself (`Cell.elist`). -/

mutual

def flatten_dict : List (String × JVal) → List Cell → List (List Cell)
  | [], _ => []
  | (k, v) :: rest, parent_key => flatten_val k v parent_key ++ flatten_dict rest parent_key

def flatten_val (k : String) (v : JVal) (parent_key : List Cell) : List (List Cell) :=
  match v with
  | JVal.dict kvs => flatten_dict kvs (parent_key ++ [Cell.str k])
  | JVal.arr items =>
    if items.isEmpty then
      [parent_key ++ [Cell.str k, Cell.elist]]
    else
      items.map (fun item => parent_key ++ [Cell.str k, cellOfScalar item])
  | JVal.leaf s => [parent_key ++ [Cell.str k, cellOfScalar s]]

end

/-! ## `_validate_json_depth` (json_excel_converter.py lines 225-261)

`get_depth` follows the inner helper: a dict adds one level per nesting, a
list passes the current depth through to its elements (our `arr` elements
are scalars, so a list's depth is the current depth whether or not it is
empty), and scalars sit at the current depth.  `check_depth` follows the
second helper: at a dict it demands `get_depth(v, depth+1) == max_depth`
for every value and recurses; at a list of scalars the `any` clause demands
`depth == max_depth` for every element (the recursive `all` over scalar
elements is vacuously true). -/

mutual

def get_depth : JVal → Nat → Nat
  | JVal.dict kvs, current_depth =>
    if kvs.isEmpty then current_depth else get_depth_vals kvs (current_depth + 1)
  | JVal.arr _, current_depth => current_depth
  | JVal.leaf _, current_depth => current_depth

def get_depth_vals : List (String × JVal) → Nat → Nat
  | [], _ => 0
  | kv :: rest, current_depth => max (get_depth kv.2 current_depth) (get_depth_vals rest current_depth)

end

/-- The `any(get_depth(v, depth + 1) != max_depth for v in d.values())` test. -/
def vals_reach (max_depth : Nat) (kvs : List (String × JVal)) (depth : Nat) : Bool :=
  kvs.all (fun kv => get_depth kv.2 depth == max_depth)

mutual

def check_depth (max_depth : Nat) : JVal → Nat → Bool
  | JVal.dict kvs, depth =>
    vals_reach max_depth kvs (depth + 1) && check_depth_vals max_depth kvs (depth + 1)
  | JVal.arr items, depth => items.all (fun _ => depth == max_depth)
  | JVal.leaf _, _ => true

def check_depth_vals (max_depth : Nat) : List (String × JVal) → Nat → Bool
  | [], _ => true
  | kv :: rest, depth => check_depth max_depth kv.2 depth && check_depth_vals max_depth rest depth

end

/-- `_validate_json_depth` returns normally iff this is `true`; otherwise it
raises `ValueError("All JSON data must be at the same depth.")`. -/
def validate_json_depth (data : JVal) : Bool :=
  check_depth (get_depth data 0) data 0

/-! ## Leaf depths (specification-side notion for C6)

`leafDepths t d` lists, for every leaf of `t` (a scalar, a list element, an
empty list, or an empty dict), the depth at which it sits when `t` itself
sits at depth `d`: dict nesting adds 1 per level, list elements add
nothing. -/

mutual

def leafDepths : JVal → Nat → List Nat
  | JVal.dict kvs, d => if kvs.isEmpty then [d] else leafDepths_vals kvs (d + 1)
  | JVal.arr items, d => if items.isEmpty then [d] else items.map (fun _ => d)
  | JVal.leaf _, d => [d]

def leafDepths_vals : List (String × JVal) → Nat → List Nat
  | [], _ => []
  | kv :: rest, d => leafDepths kv.2 d ++ leafDepths_vals rest d

end

/-! ## Characterisation of the JSON-side depth validator -/

theorem foldr_max_map_const {α : Type} (d : Nat) (l : List α) (h : l ≠ []) :
    (l.map (fun _ => d)).foldr max 0 = d := by
  induction l with
  | nil => exact absurd rfl h
  | cons a as ih =>
    cases as with
    | nil => simp
    | cons b bs =>
      simp only [List.map_cons, List.foldr_cons] at ih ⊢
      rw [ih (by simp)]
      exact Nat.max_self d

theorem foldr_max_append (l₁ l₂ : List Nat) :
    (l₁ ++ l₂).foldr max 0 = max (l₁.foldr max 0) (l₂.foldr max 0) := by
  induction l₁ with
  | nil => simp
  | cons a t ih => simp [List.foldr_cons, ih, Nat.max_assoc]

mutual

theorem get_depth_eq_max : ∀ (t : JVal) (d : Nat),
    get_depth t d = (leafDepths t d).foldr max 0
  | JVal.dict kvs, d => by
    cases kvs with
    | nil => simp [get_depth, leafDepths]
    | cons kv rest =>
      simp only [get_depth, leafDepths, List.isEmpty_cons, Bool.false_eq_true, if_false]
      exact get_depth_vals_eq_max (kv :: rest) (d + 1)
  | JVal.arr items, d => by
    cases items with
    | nil => simp [get_depth, leafDepths]
    | cons i rest =>
      simp only [get_depth, leafDepths, List.isEmpty_cons, Bool.false_eq_true, if_false]
      exact (foldr_max_map_const d (i :: rest) (by simp)).symm
  | JVal.leaf s, d => by simp [get_depth, leafDepths]

theorem get_depth_vals_eq_max : ∀ (kvs : List (String × JVal)) (d : Nat),
    get_depth_vals kvs d = (leafDepths_vals kvs d).foldr max 0
  | [], d => by simp [get_depth_vals, leafDepths_vals]
  | kv :: rest, d => by
    simp only [get_depth_vals, leafDepths_vals, foldr_max_append]
    rw [get_depth_eq_max kv.2 d, get_depth_vals_eq_max rest d]

end

theorem vals_reach_gdv (m : Nat) (d : Nat) : ∀ (kvs : List (String × JVal)), kvs ≠ [] →
    (∀ kv ∈ kvs, get_depth kv.2 d = m) → get_depth_vals kvs d = m
  | [], h, _ => absurd rfl h
  | [kv], _, h => by
    have h1 := h kv (by simp)
    show max (get_depth kv.2 d) 0 = m
    rw [h1, Nat.max_zero]
  | kv :: kv' :: rest, _, h => by
    have h1 := h kv (by simp)
    have h2 := vals_reach_gdv m d (kv' :: rest) (by simp)
      (fun x hx => h x (List.mem_cons_of_mem _ hx))
    show max (get_depth kv.2 d) (get_depth_vals (kv' :: rest) d) = m
    rw [h1, h2, Nat.max_self]

mutual

theorem check_depth_iff : ∀ (m : Nat) (t : JVal) (d : Nat),
    (check_depth m t d = true ∧ get_depth t d = m) ↔ (∀ x ∈ leafDepths t d, x = m)
  | m, JVal.leaf s, d => by simp [check_depth, get_depth, leafDepths]
  | m, JVal.arr items, d => by
    cases items with
    | nil => simp [check_depth, get_depth, leafDepths]
    | cons i rest =>
      simp only [check_depth, get_depth, leafDepths, List.isEmpty_cons, Bool.false_eq_true,
        if_false, List.all_eq_true, beq_iff_eq, List.mem_map]
      constructor
      · rintro ⟨-, rfl⟩ x ⟨y, -, rfl⟩
        rfl
      · intro h
        have hd : d = m := h d ⟨i, by simp⟩
        exact ⟨fun _ _ => hd, hd⟩
  | m, JVal.dict kvs, d => by
    cases kvs with
    | nil => simp [check_depth, get_depth, leafDepths, vals_reach, check_depth_vals]
    | cons kv rest =>
      have hvals := check_depth_vals_iff m (kv :: rest) (d + 1)
      simp only [check_depth, get_depth, leafDepths, List.isEmpty_cons, Bool.false_eq_true,
        if_false, Bool.and_eq_true, vals_reach, List.all_eq_true, beq_iff_eq]
      constructor
      · rintro ⟨⟨hreach, hcv⟩, -⟩
        exact hvals.mp ⟨hcv, hreach⟩
      · intro h
        obtain ⟨hcv, hreach⟩ := hvals.mpr h
        exact ⟨⟨hreach, hcv⟩, vals_reach_gdv m (d + 1) (kv :: rest) (by simp) hreach⟩

theorem check_depth_vals_iff : ∀ (m : Nat) (kvs : List (String × JVal)) (d : Nat),
    (check_depth_vals m kvs d = true ∧ ∀ kv ∈ kvs, get_depth kv.2 d = m) ↔
      (∀ x ∈ leafDepths_vals kvs d, x = m)
  | m, [], d => by simp [check_depth_vals, leafDepths_vals]
  | m, kv :: rest, d => by
    have hv := check_depth_iff m kv.2 d
    have hr := check_depth_vals_iff m rest d
    simp only [check_depth_vals, Bool.and_eq_true, leafDepths_vals, List.mem_append]
    constructor
    · rintro ⟨⟨hc, hcs⟩, hg⟩ x hx
      rcases hx with hx | hx
      · exact hv.mp ⟨hc, hg kv (by simp)⟩ x hx
      · exact hr.mp ⟨hcs, fun kv' h' => hg kv' (List.mem_cons_of_mem _ h')⟩ x hx
    · intro h
      obtain ⟨hc, hg⟩ := hv.mpr (fun x hx => h x (Or.inl hx))
      obtain ⟨hcs, hgs⟩ := hr.mpr (fun x hx => h x (Or.inr hx))
      refine ⟨⟨hc, hcs⟩, ?_⟩
      intro kv' hmem
      rcases List.mem_cons.mp hmem with h2 | h2
      · rw [h2]
        exact hg
      · exact hgs kv' h2

end

/-- The validator returns normally exactly when every leaf sits at the
depth `get_depth` computed for the whole tree. -/
theorem validate_iff_uniform (t : JVal) :
    validate_json_depth t = true ↔ ∀ x ∈ leafDepths t 0, x = get_depth t 0 := by
  unfold validate_json_depth
  constructor
  · intro h
    exact (check_depth_iff (get_depth t 0) t 0).mp ⟨h, rfl⟩
  · intro h
    exact ((check_depth_iff (get_depth t 0) t 0).mpr h).1

/-! ## `_dict_to_dataframe` (lines 89-101)

`max(len(row) for row in rows)` raises `ValueError: max() arg is an empty
sequence` when `rows` is empty, so the whole step is `Option`-valued; the
`pd.DataFrame(rows, ...)` constructor pads shorter rows with `NaN` up to the
column count. -/

def max_row_len : List (List Cell) → Option Nat
  | [] => none
  | r :: rs => some (((r :: rs).map List.length).foldr max 0)

def pad_row (n : Nat) (r : List Cell) : List Cell :=
  r ++ List.replicate (n - r.length) Cell.null

def dict_to_dataframe (data_dict : List (String × JVal)) : Option (List (List Cell)) :=
  match max_row_len (flatten_dict data_dict []) with
  | none => none
  | some n => some ((flatten_dict data_dict []).map (pad_row n))

/-! ## `_save_to_excel` / `_set_headers` / `_merge_cells` (lines 125-174)

The data frame is written starting at sheet row 2 and `_set_headers` puts
`Level 1 .. Level C` into sheet row 1.  `_merge_cells` walks each column
over the data rows keeping `prev_value` / `start_row`; whenever the value
changes it merges the finished run if it has length ≥ 2 and its value is
not `None` (and likewise for the final run).  `openpyxl`'s `merge_cells`
keeps the top-left value and blanks the remaining cells of the range, so on
cell values the pass blanks exactly those data cells that repeat the cell
directly above them in the same column with a non-`None` value — which is
the pairwise `merge_cell` below (the loop always compares against the
previous row's original value, and already-passed rows are never re-read).
-/

def header_row (n : Nat) : List Cell :=
  (List.range n).map (fun i => Cell.str ("Level " ++ toString (i + 1)))

def merge_cell (prev c : Cell) : Cell :=
  if c = prev ∧ c ≠ Cell.null then Cell.null else c

def merge_rows_go (prev : List Cell) : List (List Cell) → List (List Cell)
  | [] => []
  | r :: rs => List.zipWith merge_cell prev r :: merge_rows_go r rs

def merge_rows : List (List Cell) → List (List Cell)
  | [] => []
  | r :: rs => r :: merge_rows_go r rs

def save_to_excel (df : List (List Cell)) : List (List Cell) :=
  header_row (df.headD []).length :: merge_rows df

/-! ## `_excel_to_dict`'s read phase (lines 176-185)

`pd.read_excel(..., header=None).iloc[1:]` drops the header row; merged
ranges come back as the top-left value plus `NaN`s; `df.ffill(axis=0)`
replaces every `NaN` with the nearest non-`NaN` value above it in the same
column (leading `NaN`s stay, and filled values propagate further down). -/

def ffill_cell (last c : Cell) : Cell :=
  if c = Cell.null then last else c

def ffill_rows_go (last : List Cell) : List (List Cell) → List (List Cell)
  | [] => []
  | r :: rs => List.zipWith ffill_cell last r :: ffill_rows_go (List.zipWith ffill_cell last r) rs

def ffill_rows : List (List Cell) → List (List Cell)
  | [] => []
  | r :: rs => r :: ffill_rows_go r rs

/-! ## `_build_dict` (lines 187-213)

The nested dict under construction: Python dict values are either nested
dicts or lists of leaf values.  Keys are whatever cell values the rows
carry. -/

inductive BVal where
  | bdict : List (Cell × BVal) → BVal
  | blist : List Cell → BVal
deriving Repr

mutual

def bvalBeq : BVal → BVal → Bool
  | BVal.bdict kvs, BVal.bdict kvs' => bvalBeqEntries kvs kvs'
  | BVal.blist xs, BVal.blist ys => xs == ys
  | _, _ => false

def bvalBeqEntries : List (Cell × BVal) → List (Cell × BVal) → Bool
  | [], [] => true
  | (k, v) :: r, (k', v') :: r' => k == k' && bvalBeq v v' && bvalBeqEntries r r'
  | _, _ => false

end

mutual

theorem bvalBeq_iff : ∀ a b : BVal, bvalBeq a b = true ↔ a = b
  | BVal.bdict kvs, BVal.bdict kvs' => by
    simp only [bvalBeq, BVal.bdict.injEq]
    exact bvalBeqEntries_iff kvs kvs'
  | BVal.blist xs, BVal.blist ys => by simp [bvalBeq]
  | BVal.bdict _, BVal.blist _ => by simp [bvalBeq]
  | BVal.blist _, BVal.bdict _ => by simp [bvalBeq]

theorem bvalBeqEntries_iff : ∀ xs ys : List (Cell × BVal),
    bvalBeqEntries xs ys = true ↔ xs = ys
  | [], [] => by simp [bvalBeqEntries]
  | (k, v) :: r, (k', v') :: r' => by
    simp only [bvalBeqEntries, Bool.and_eq_true, beq_iff_eq, List.cons.injEq, Prod.mk.injEq]
    rw [bvalBeq_iff v v', bvalBeqEntries_iff r r']
  | [], (_, _) :: _ => by simp [bvalBeqEntries]
  | (_, _) :: _, [] => by simp [bvalBeqEntries]

end

instance : DecidableEq BVal := fun a b => decidable_of_iff (bvalBeq a b = true) (bvalBeq_iff a b)

/-- First binding for a key, as Python `current_level[value]` finds it. -/
def alookup : List (Cell × BVal) → Cell → Option BVal
  | [], _ => none
  | (k, v) :: rest, c => if k = c then some v else alookup rest c

/-- In-place update `current_level[k] = nv` of an existing key: the binding
keeps its position (Python dicts preserve insertion order on update). -/
def areplace : List (Cell × BVal) → Cell → BVal → List (Cell × BVal)
  | [], _, _ => []
  | (k, v) :: rest, c, nv => if k = c then (k, nv) :: rest else (k, v) :: areplace rest c nv

def keysOf (m : List (Cell × BVal)) : List Cell := m.map Prod.fst

/-- The terminal part of one `_build_dict` row iteration:

```python
last_key, last_value = row[-2], row[-1]
if pd.notna(last_key):
    if last_key not in current_level:
        current_level[last_key] = []
    if pd.notna(last_value) and last_value not in current_level[last_key]:
        current_level[last_key].append(last_value)
```

When `current_level[last_key]` already holds a *dict*, the membership test
checks its keys and the `.append` raises `AttributeError` (`none`) unless
the append is skipped because `last_value` is absent or is one of the keys.
-/
def handleLeaf (current_level : List (Cell × BVal)) (last_key last_value : Cell) :
    Option (List (Cell × BVal)) :=
  if cellNotna last_key = false then some current_level
  else
    match alookup current_level last_key with
    | none =>
      some (current_level ++
        [(last_key, BVal.blist (if cellNotna last_value then [last_value] else []))])
    | some (BVal.blist l) =>
      some (areplace current_level last_key
        (BVal.blist (if cellNotna last_value = true ∧ last_value ∉ l then l ++ [last_value] else l)))
    | some (BVal.bdict d) =>
      if cellNotna last_value = false ∨ last_value ∈ keysOf d then some current_level
      else none

/-- What happens after the path walk has stepped into a Python *list*
(`current_level = current_level[value]` where the value was a list): every
further dict-style operation on it raises (`none`); the row is a no-op only
when all the remaining path cells are absent and the terminal part also
touches nothing. -/
def buildIntoList (l : List Cell) (path_rest : List Cell) (last_key last_value : Cell) :
    Option Unit :=
  if path_rest.all (fun c => !(cellNotna c)) then
    if cellNotna last_key = false then some ()
    else if last_key ∈ l then
      if cellNotna last_value = false then some () else none
    else none
  else none

/-- The path walk of one `_build_dict` row iteration:

```python
current_level = result
for i in range(len(row) - 2):
    value = row[i]
    if pd.notna(value):
        if value not in current_level:
            current_level[value] = {}
        current_level = current_level[value]
```

Absent path cells are skipped; a fresh key gets a new `{}` appended at the
end (insertion order); an existing dict is entered in place. -/
def buildStep : List (Cell × BVal) → List Cell → Cell → Cell → Option (List (Cell × BVal))
  | current_level, [], last_key, last_value => handleLeaf current_level last_key last_value
  | current_level, c :: cs, last_key, last_value =>
    if cellNotna c = false then buildStep current_level cs last_key last_value
    else
      match alookup current_level c with
      | none =>
        match buildStep [] cs last_key last_value with
        | some sub => some (current_level ++ [(c, BVal.bdict sub)])
        | none => none
      | some (BVal.bdict sub) =>
        match buildStep sub cs last_key last_value with
        | some sub' => some (areplace current_level c (BVal.bdict sub'))
        | none => none
      | some (BVal.blist l) =>
        match buildIntoList l cs last_key last_value with
        | some _ => some current_level
        | none => none

/-- One row of `_build_dict`'s loop.  `row[-2]` raises `IndexError` on rows
shorter than 2 (`none`). -/
def buildRow (result : List (Cell × BVal)) (row : List Cell) : Option (List (Cell × BVal)) :=
  match row.reverse with
  | last_value :: last_key :: rev_path => buildStep result rev_path.reverse last_key last_value
  | _ => none

def build_dict (rows : List (List Cell)) : Option (List (Cell × BVal)) :=
  List.foldlM buildRow [] rows

/-- `_excel_to_dict`: strip the header row, forward-fill, rebuild. -/
def excel_to_dict (artifact : List (List Cell)) : Option (List (Cell × BVal)) :=
  build_dict (ffill_rows (artifact.drop 1))

/-! ## `_validate_excel_depth` (lines 263-285)

The function receives the *nested dict*, not the table rows.
`pd.DataFrame.from_dict(data, orient='index')` makes one frame row per
top-level key.  When every top-level value is a dict the columns are the
union of the inner keys in first-seen order and a row's cell is the inner
value (or `NaN` when the inner dict lacks that key); when every top-level
value is a list the columns are positional and a row's cells are the list
elements padded with `NaN`; mixing the two shapes raises a pandas
`ValueError` (`none`).  `get_row_depth` then counts cells for which
`if pd.notna(item)` is truthy: a dict cell is truthy, a 1-element list cell
is truthy iff its element is non-absent, an empty list cell is falsy, and a
list cell with ≥ 2 elements raises numpy's "truth value of an array is
ambiguous" `ValueError` (`none`).  Finally `row_depths.max() != row_depths.min()`
fails, i.e. the check passes iff all row depths are equal (an empty frame
yields `NaN != NaN`, which is a failure). -/

def isBDict : BVal → Bool
  | BVal.bdict _ => true
  | BVal.blist _ => false

def entriesOf : BVal → List (Cell × BVal)
  | BVal.bdict e => e
  | BVal.blist _ => []

def truthy_notna : BVal → Option Bool
  | BVal.bdict _ => some true
  | BVal.blist [] => some false
  | BVal.blist [c] => some (cellNotna c)
  | BVal.blist _ => none

def add_cols (acc : List Cell) : List Cell → List Cell
  | [] => acc
  | c :: cs => if c ∈ acc then add_cols acc cs else add_cols (acc ++ [c]) cs

def from_dict_cols (inners : List (List (Cell × BVal))) : List Cell :=
  inners.foldl (fun acc inner => add_cols acc (inner.map Prod.fst)) []

def dict_row_depth (cols : List Cell) (inner : List (Cell × BVal)) : Option Nat :=
  List.foldlM
    (fun n c =>
      match alookup inner c with
      | none => some n
      | some v => (truthy_notna v).map (fun b => if b then n + 1 else n))
    0 cols

def list_row_depth : BVal → Nat
  | BVal.blist l => (l.filter cellNotna).length
  | BVal.bdict _ => 0

def validate_excel_depth (data : List (Cell × BVal)) : Option Bool :=
  if data.all (fun kv => isBDict kv.2) then
    match (data.map (fun kv => entriesOf kv.2)).mapM
        (dict_row_depth (from_dict_cols (data.map (fun kv => entriesOf kv.2)))) with
    | none => none
    | some [] => some false
    | some (d :: ds) => some (ds.all (fun x => x == d))
  else if data.all (fun kv => !(isBDict kv.2)) then
    match data.map (fun kv => list_row_depth kv.2) with
    | [] => some false
    | d :: ds => some (ds.all (fun x => x == d))
  else none

/-- Depth of a table row as the specification defines it: the count of its
non-absent cells. -/
def spec_row_depth (r : List Cell) : Nat := (r.filter cellNotna).length

/-! ## The two conversion calls (lines 22-61) -/

/-- The Python errors the conversion calls can surface.  The first two are
the `ValueError`s the class raises itself; the last three model unhandled
exceptions escaping from library calls (`max()` on an empty sequence,
dict/list confusion inside `_build_dict`, numpy's ambiguous-truth error
inside `_validate_excel_depth`). -/
inductive PyErr where
  | missingArgument
  | depthMismatch
  | builtinMaxEmpty
  | typeConfusion
  | ambiguousTruth
deriving DecidableEq, Repr

deriving instance DecidableEq for Except

/-- The four fields set by `JsonExcelConverter.__init__`. -/
structure Converter where
  json_file : Option String
  data_dict : Option (List (String × JVal))
  excel_file : Option String
  output_json_file : Option String
deriving DecidableEq, Repr

/-- Python truthiness of an optional string: `None` and `""` are falsy. -/
def truthyS : Option String → Bool
  | none => false
  | some s => !(s == "")

/-- Split on a character, like Python `str.split(sep)`. -/
def splitOnChar (c : Char) : List Char → List (List Char)
  | [] => [[]]
  | a :: as =>
    match splitOnChar c as with
    | [] => [[]]
    | g :: gs => if a = c then [] :: g :: gs else (a :: g) :: gs

def joinWithDot : List (List Char) → List Char
  | [] => []
  | [g] => g
  | g :: gs => g ++ '.' :: joinWithDot gs

/-- `Path(p).stem` for ordinary file names: the final path component with
its last extension removed; a leading dot does not start an extension and a
trailing dot leaves no extension to strip. -/
def pathStem (p : String) : String :=
  let nm := ((splitOnChar '/' p.data).filter (fun g => decide (g ≠ []))).getLastD []
  match splitOnChar '.' nm with
  | [] => String.mk nm
  | [_] => String.mk nm
  | [] :: [_] => String.mk nm
  | parts =>
    if parts.getLastD [] = [] then String.mk nm
    else String.mk (joinWithDot parts.dropLast)

/-- `_generate_excel_filename` (lines 76-87): `f'{Path(json_file).stem}.xlsx'`. -/
def generate_excel_filename (json_file : String) : String :=
  pathStem json_file ++ ".xlsx"

/-- Shared tail of `json_to_excel`: `_dict_to_dataframe` then
`_save_to_excel`.  A successful call yields the converter state, the path
written to, and the cell grid of the written workbook. -/
def json_to_excel_write (cv : Converter) (d : List (String × JVal)) (ex : String) :
    Except PyErr (Converter × String × List (List Cell)) :=
  match dict_to_dataframe d with
  | some df => Except.ok (cv, ex, save_to_excel df)
  | none => Except.error PyErr.builtinMaxEmpty

/-- The `elif self.data_dict is None or self.excel_file is None` arm: note
the `is None` tests (an empty dict or an empty-string path passes) and the
*absence of any depth validation* on this path. -/
def json_to_excel_data (cv : Converter) :
    Except PyErr (Converter × String × List (List Cell)) :=
  match cv.data_dict, cv.excel_file with
  | some d, some ex => json_to_excel_write cv d ex
  | _, _ => Except.error PyErr.missingArgument

/-- `json_to_excel` (lines 22-42).  `if self.json_file:` is a truthiness
test, so `json_file = ""` falls through to the `data_dict` arm.  On the
`json_file` arm the instance's `data_dict` and `excel_file` are overwritten
and `_validate_json_depth` runs before anything is written.  `parse` stands
for `json.load` of the named file. -/
def json_to_excel (parse : String → List (String × JVal)) (cv : Converter) :
    Except PyErr (Converter × String × List (List Cell)) :=
  match cv.json_file with
  | some p =>
    if p = "" then json_to_excel_data cv
    else
      if validate_json_depth (JVal.dict (parse p)) then
        json_to_excel_write
          { cv with data_dict := some (parse p),
                    excel_file := some (generate_excel_filename p) }
          (parse p) (generate_excel_filename p)
      else Except.error PyErr.depthMismatch
  | none => json_to_excel_data cv

/-- `excel_to_json` (lines 44-61).  `read_excel` stands for
`pd.read_excel(path, header=None)` giving the cell grid of the workbook.
A successful call returns the nested dict that is then serialised to
`output_json_file`. -/
def excel_to_json (read_excel : String → List (List Cell)) (cv : Converter) :
    Except PyErr (List (Cell × BVal)) :=
  if !(truthyS cv.excel_file) || !(truthyS cv.output_json_file) then
    Except.error PyErr.missingArgument
  else
    match cv.excel_file with
    | some p =>
      match excel_to_dict (read_excel p) with
      | none => Except.error PyErr.typeConfusion
      | some nested =>
        match validate_excel_depth nested with
        | none => Except.error PyErr.ambiguousTruth
        | some true => Except.ok nested
        | some false => Except.error PyErr.depthMismatch
    | none => Except.error PyErr.missingArgument

/-! ## The merge pass and the forward-fill are mutually inverse on
rectangular grids without absent cells -/

theorem zip_fill_merge : ∀ (prev r : List Cell), r.length = prev.length →
    (∀ c ∈ r, c ≠ Cell.null) →
    List.zipWith ffill_cell prev (List.zipWith merge_cell prev r) = r
  | [], [], _, _ => rfl
  | [], _ :: _, hlen, _ => by simp at hlen
  | _ :: _, [], _, _ => rfl
  | p :: ps, a :: t, hlen, hnn => by
    have ha : a ≠ Cell.null := hnn a (by simp)
    have ih := zip_fill_merge ps t (by simpa using hlen)
      (fun c hc => hnn c (List.mem_cons_of_mem _ hc))
    simp only [List.zipWith_cons_cons]
    refine congrArg₂ List.cons ?_ ih
    by_cases h : a = p
    · simp [merge_cell, ffill_cell, h, ha]
    · simp [merge_cell, ffill_cell, h, ha]

theorem ffill_merge_go : ∀ (g : List (List Cell)) (prev : List Cell),
    (∀ r ∈ g, r.length = prev.length) → (∀ r ∈ g, ∀ c ∈ r, c ≠ Cell.null) →
    ffill_rows_go prev (merge_rows_go prev g) = g
  | [], _, _, _ => rfl
  | r :: rs, prev, hlen, hnn => by
    simp only [merge_rows_go, ffill_rows_go]
    have hfill : List.zipWith ffill_cell prev (List.zipWith merge_cell prev r) = r :=
      zip_fill_merge prev r (hlen r (by simp)) (hnn r (by simp))
    rw [hfill]
    refine congrArg _ (ffill_merge_go rs r ?_ ?_)
    · intro r' hr'
      rw [hlen r' (List.mem_cons_of_mem _ hr'), ← hlen r (by simp)]
    · exact fun r' hr' => hnn r' (List.mem_cons_of_mem _ hr')

/-- On a rectangular grid with no absent cells, decoding (forward fill)
exactly inverts the carry-forward blanking done by the merge pass. -/
theorem ffill_merge_id (g : List (List Cell)) (n : Nat)
    (hlen : ∀ r ∈ g, r.length = n) (hnn : ∀ r ∈ g, ∀ c ∈ r, c ≠ Cell.null) :
    ffill_rows (merge_rows g) = g := by
  cases g with
  | nil => rfl
  | cons r rs =>
    simp only [merge_rows, ffill_rows]
    refine congrArg _ (ffill_merge_go rs r ?_ ?_)
    · intro r' hr'
      rw [hlen r' (List.mem_cons_of_mem _ hr'), ← hlen r (by simp)]
    · exact fun r' hr' => hnn r' (List.mem_cons_of_mem _ hr')

/-! ## Association-list lemmas for the rebuild -/

theorem alookup_of_not_mem : ∀ (m : List (Cell × BVal)) (c : Cell),
    c ∉ keysOf m → alookup m c = none
  | [], _, _ => rfl
  | kv :: rest, c, h => by
    have h1 : kv.1 ≠ c := by
      intro he
      exact h (by simp [keysOf, he])
    have h2 : c ∉ keysOf rest := by
      intro hc
      exact h (by simp [keysOf] at hc ⊢; exact Or.inr hc)
    show (if kv.1 = c then some kv.2 else alookup rest c) = none
    rw [if_neg h1]
    exact alookup_of_not_mem rest c h2

theorem alookup_append_last : ∀ (m : List (Cell × BVal)) (c : Cell) (v : BVal),
    c ∉ keysOf m → alookup (m ++ [(c, v)]) c = some v
  | [], c, v, _ => by simp [alookup]
  | kv :: rest, c, v, h => by
    have h1 : kv.1 ≠ c := by
      intro he
      exact h (by simp [keysOf, he])
    show (if kv.1 = c then some kv.2 else alookup (rest ++ [(c, v)]) c) = some v
    rw [if_neg h1]
    exact alookup_append_last rest c v (by
      intro hc
      exact h (by simp [keysOf] at hc ⊢; exact Or.inr hc))

theorem areplace_append_last : ∀ (m : List (Cell × BVal)) (c : Cell) (v nv : BVal),
    c ∉ keysOf m → areplace (m ++ [(c, v)]) c nv = m ++ [(c, nv)]
  | [], c, v, nv, _ => by simp [areplace]
  | (k, w) :: rest, c, v, nv, h => by
    have h1 : k ≠ c := by
      intro he
      exact h (by simp [keysOf, he])
    simp only [List.cons_append, areplace, if_neg h1]
    exact congrArg _ (areplace_append_last rest c v nv (by
      intro hc
      exact h (by simp [keysOf] at hc ⊢; exact Or.inr hc)))

theorem foldlM_append_option {α β : Type} (f : β → α → Option β) (l₁ l₂ : List α) (b : β) :
    List.foldlM f b (l₁ ++ l₂) = (List.foldlM f b l₁).bind (fun b' => List.foldlM f b' l₂) := by
  induction l₁ generalizing b with
  | nil => simp [List.foldlM]
  | cons a t ih =>
    simp only [List.cons_append, List.foldlM]
    cases f b a with
    | none => simp
    | some b' => exact ih b'

theorem buildRow_eq (m : List (Cell × BVal)) (p : List Cell) (lk lv : Cell) :
    buildRow m (p ++ [lk, lv]) = buildStep m p lk lv := by
  unfold buildRow
  have h : (p ++ [lk, lv]).reverse = lv :: lk :: p.reverse := by simp
  rw [h]
  simp

theorem exists_two_split (r : List Cell) (h : 2 ≤ r.length) :
    ∃ p lk lv, r = p ++ [lk, lv] := by
  cases hr : r.reverse with
  | nil =>
    rw [← List.length_reverse, hr] at h
    simp at h
  | cons a t =>
    cases t with
    | nil =>
      rw [← List.length_reverse, hr] at h
      simp at h
    | cons b t' =>
      refine ⟨t'.reverse, b, a, ?_⟩
      rw [← List.reverse_reverse r, hr]
      simp

/-! ## Well-shaped trees

`shaped v d` says the value `v` is a uniform-depth subtree all of whose
leaves are non-empty lists of non-`null`, duplicate-free scalars, sitting
exactly `d` levels below the point where `v` hangs (a list leaf consumes
one level for its key, so `shaped (arr items) d` forces `d = 1`), with
duplicate-free keys at every dict level (Python dicts cannot carry
duplicate keys, so this mirrors the source data model rather than
restricting it). -/

mutual

def shaped : JVal → Nat → Bool
  | JVal.arr items, d =>
    (d == 1) && !items.isEmpty && items.all (fun i => i.isSome) && nodupB items
  | JVal.dict kvs, d =>
    !kvs.isEmpty && nodupB (kvs.map Prod.fst) && shapedVals kvs (d - 1)
  | JVal.leaf _, _ => false

def shapedVals : List (String × JVal) → Nat → Bool
  | [], _ => true
  | kv :: rest, d => shaped kv.2 d && shapedVals rest d

end

/-! The reconstructed form of a source tree: string keys become string
cells, scalar list items become cells, and (for completeness) a bare scalar
leaf becomes the singleton list the reverse transform would produce. -/

mutual

def encodeVal : JVal → BVal
  | JVal.dict kvs => BVal.bdict (encodeEntries kvs)
  | JVal.arr items => BVal.blist (items.map cellOfScalar)
  | JVal.leaf s => BVal.blist [cellOfScalar s]

def encodeEntries : List (String × JVal) → List (Cell × BVal)
  | [] => []
  | (k, v) :: rest => (Cell.str k, encodeVal v) :: encodeEntries rest

end

theorem shapedVals_mem : ∀ (kvs : List (String × JVal)) (d : Nat) (kv : String × JVal),
    shapedVals kvs d = true → kv ∈ kvs → shaped kv.2 d = true
  | kv0 :: rest, d, kv, h, hm => by
    simp only [shapedVals, Bool.and_eq_true] at h
    rcases List.mem_cons.mp hm with h2 | h2
    · rw [h2]
      exact h.1
    · exact shapedVals_mem rest d kv h.2 h2

theorem shaped_pos : ∀ (v : JVal) (d : Nat), shaped v d = true → 1 ≤ d
  | JVal.arr items, d, h => by
    simp only [shaped, Bool.and_eq_true, beq_iff_eq] at h
    obtain ⟨⟨⟨hd, -⟩, -⟩, -⟩ := h
    omega
  | JVal.dict kvs, d, h => by
    simp only [shaped, Bool.and_eq_true] at h
    cases kvs with
    | nil => simp at h
    | cons kv rest =>
      have h1 : shaped kv.2 (d - 1) = true := by
        have h2 := h.2
        simp only [shapedVals, Bool.and_eq_true] at h2
        exact h2.1
      have := shaped_pos kv.2 (d - 1) h1
      omega
  | JVal.leaf _, _, h => by simp [shaped] at h

theorem shaped_dict_two (kvs : List (String × JVal)) (d : Nat)
    (h : shaped (JVal.dict kvs) d = true) : 2 ≤ d := by
  simp only [shaped, Bool.and_eq_true] at h
  cases kvs with
  | nil => simp at h
  | cons kv rest =>
    have h1 : shaped kv.2 (d - 1) = true := by
      have h2 := h.2
      simp only [shapedVals, Bool.and_eq_true] at h2
      exact h2.1
    have := shaped_pos kv.2 (d - 1) h1
    omega

/-! ## Structure of the flattened rows -/

mutual

theorem flatten_dict_shift : ∀ (kvs : List (String × JVal)) (p q : List Cell),
    flatten_dict kvs (p ++ q) = (flatten_dict kvs q).map (fun r => p ++ r)
  | [], _, _ => rfl
  | (k, v) :: rest, p, q => by
    simp only [flatten_dict, List.map_append]
    rw [flatten_val_shift k v p q, flatten_dict_shift rest p q]

theorem flatten_val_shift : ∀ (k : String) (v : JVal) (p q : List Cell),
    flatten_val k v (p ++ q) = (flatten_val k v q).map (fun r => p ++ r)
  | k, JVal.dict kvs, p, q => by
    show flatten_dict kvs ((p ++ q) ++ [Cell.str k]) =
      (flatten_dict kvs (q ++ [Cell.str k])).map (fun r => p ++ r)
    rw [List.append_assoc]
    exact flatten_dict_shift kvs p (q ++ [Cell.str k])
  | k, JVal.arr items, p, q => by
    cases hi : items.isEmpty
    · simp [flatten_val, hi, List.map_map, Function.comp_def, List.append_assoc]
    · simp [flatten_val, hi, List.append_assoc]
  | k, JVal.leaf s, p, q => by simp [flatten_val, List.append_assoc]

end

mutual

theorem flatten_val_len : ∀ (k : String) (v : JVal) (d : Nat) (p : List Cell),
    shaped v d = true → ∀ r ∈ flatten_val k v p, r.length = p.length + d + 1
  | k, JVal.arr items, d, p, h, r, hr => by
    simp only [shaped, Bool.and_eq_true, beq_iff_eq] at h
    obtain ⟨⟨⟨hd, hne⟩, -⟩, -⟩ := h
    subst hd
    have hie : items.isEmpty = false := by simpa using hne
    simp only [flatten_val, hie, Bool.false_eq_true, if_false, List.mem_map] at hr
    obtain ⟨item, -, rfl⟩ := hr
    simp
  | k, JVal.dict kvs, d, p, h, r, hr => by
    have h2 := shaped_dict_two kvs d h
    simp only [shaped, Bool.and_eq_true] at h
    have hlen := flatten_dict_len kvs (d - 1) (p ++ [Cell.str k]) h.2 r hr
    simp only [List.length_append, List.length_cons, List.length_nil] at hlen
    omega
  | k, JVal.leaf s, d, p, h, r, hr => by simp [shaped] at h

theorem flatten_dict_len : ∀ (kvs : List (String × JVal)) (d : Nat) (p : List Cell),
    shapedVals kvs d = true → ∀ r ∈ flatten_dict kvs p, r.length = p.length + d + 1
  | [], d, p, _, r, hr => absurd hr (by simp [flatten_dict])
  | (k, v) :: rest, d, p, h, r, hr => by
    simp only [shapedVals, Bool.and_eq_true] at h
    simp only [flatten_dict, List.mem_append] at hr
    rcases hr with hr | hr
    · exact flatten_val_len k v d p h.1 r hr
    · exact flatten_dict_len rest d p h.2 r hr

end

mutual

theorem flatten_val_ne : ∀ (k : String) (v : JVal) (d : Nat) (p : List Cell),
    shaped v d = true → flatten_val k v p ≠ []
  | k, JVal.arr items, d, p, h => by
    simp only [shaped, Bool.and_eq_true, beq_iff_eq] at h
    obtain ⟨⟨⟨-, hne⟩, -⟩, -⟩ := h
    have hie : items.isEmpty = false := by simpa using hne
    simp only [flatten_val, hie, Bool.false_eq_true, if_false, ne_eq, List.map_eq_nil_iff]
    intro heq
    rw [heq] at hie
    simp at hie
  | k, JVal.dict kvs, d, p, h => by
    simp only [shaped, Bool.and_eq_true] at h
    cases kvs with
    | nil => simp at h
    | cons kv rest => exact flatten_dict_ne (kv :: rest) (d - 1) (p ++ [Cell.str k]) h.2 (by simp)
  | k, JVal.leaf s, d, p, h => by simp [shaped] at h

theorem flatten_dict_ne : ∀ (kvs : List (String × JVal)) (d : Nat) (p : List Cell),
    shapedVals kvs d = true → kvs ≠ [] → flatten_dict kvs p ≠ []
  | (k, v) :: rest, d, p, h, _ => by
    simp only [shapedVals, Bool.and_eq_true] at h
    simp only [flatten_dict]
    intro heq
    exact flatten_val_ne k v d p h.1 (List.append_eq_nil.mp heq).1

end

mutual

theorem flatten_val_nonull : ∀ (k : String) (v : JVal) (d : Nat) (p : List Cell),
    shaped v d = true → (∀ c ∈ p, c ≠ Cell.null) →
    ∀ r ∈ flatten_val k v p, ∀ c ∈ r, c ≠ Cell.null
  | k, JVal.arr items, d, p, h, hp, r, hr, c, hc => by
    simp only [shaped, Bool.and_eq_true, beq_iff_eq] at h
    obtain ⟨⟨⟨-, hne⟩, hsome⟩, -⟩ := h
    have hie : items.isEmpty = false := by simpa using hne
    simp only [flatten_val, hie, Bool.false_eq_true, if_false, List.mem_map] at hr
    obtain ⟨item, hitem, rfl⟩ := hr
    simp only [List.mem_append, List.mem_cons, List.not_mem_nil, or_false] at hc
    rcases hc with hc | hc | hc
    · exact hp c hc
    · rw [hc]
      simp
    · rw [hc]
      have := List.all_eq_true.mp hsome item hitem
      cases item with
      | none => simp at this
      | some s => simp [cellOfScalar]
  | k, JVal.dict kvs, d, p, h, hp, r, hr, c, hc => by
    simp only [shaped, Bool.and_eq_true] at h
    refine flatten_dict_nonull kvs (d - 1) (p ++ [Cell.str k]) h.2 ?_ r hr c hc
    intro c' hc'
    simp only [List.mem_append, List.mem_cons, List.not_mem_nil, or_false] at hc'
    rcases hc' with hc' | hc'
    · exact hp c' hc'
    · rw [hc']
      simp
  | k, JVal.leaf s, d, p, h, hp, r, hr, c, hc => by simp [shaped] at h

theorem flatten_dict_nonull : ∀ (kvs : List (String × JVal)) (d : Nat) (p : List Cell),
    shapedVals kvs d = true → (∀ c ∈ p, c ≠ Cell.null) →
    ∀ r ∈ flatten_dict kvs p, ∀ c ∈ r, c ≠ Cell.null
  | [], d, p, _, _, r, hr => absurd hr (by simp [flatten_dict])
  | (k, v) :: rest, d, p, h, hp, r, hr => by
    simp only [shapedVals, Bool.and_eq_true] at h
    simp only [flatten_dict, List.mem_append] at hr
    rcases hr with hr | hr
    · exact flatten_val_nonull k v d p h.1 hp r hr
    · exact flatten_dict_nonull rest d p h.2 hp r hr

end

/-! ## Rebuilding the flattened rows -/

theorem foldlM_cons_some {α β : Type} (f : β → α → Option β) (a : α) (l : List α) (b b' : β)
    (h : f b a = some b') : List.foldlM f b (a :: l) = List.foldlM f b' l := by
  show f b a >>= (fun s => List.foldlM f s l) = _
  rw [h]
  rfl

theorem foldlM_cons_none {α β : Type} (f : β → α → Option β) (a : α) (l : List α) (b : β)
    (h : f b a = none) : List.foldlM f b (a :: l) = none := by
  show f b a >>= (fun s => List.foldlM f s l) = none
  rw [h]
  rfl

theorem buildRow_cons_eq (m : List (Cell × BVal)) (k : Cell) (p : List Cell) (lk lv : Cell) :
    buildRow m (k :: (p ++ [lk, lv])) = buildStep m (k :: p) lk lv :=
  buildRow_eq m (k :: p) lk lv

theorem cellOfScalar_inj : Function.Injective cellOfScalar := by
  intro a b hab
  cases a with
  | none =>
    cases b with
    | none => rfl
    | some t => simp [cellOfScalar] at hab
  | some s =>
    cases b with
    | none => simp [cellOfScalar] at hab
    | some t =>
      simp only [cellOfScalar, Cell.str.injEq] at hab
      rw [hab]

/-- Folding the rows of one list leaf, when the key already holds a list:
each item is appended to the list unless already present; with fresh,
duplicate-free, non-absent items the whole list is rebuilt in order. -/
theorem build_arr_fold : ∀ (items : List Cell) (m : List (Cell × BVal)) (k : Cell)
    (acc : List Cell), k ∉ keysOf m → cellNotna k = true →
    (∀ c ∈ items, cellNotna c = true) → (acc ++ items).Nodup →
    List.foldlM buildRow (m ++ [(k, BVal.blist acc)]) (items.map (fun it => [k, it])) =
      some (m ++ [(k, BVal.blist (acc ++ items))])
  | [], m, k, acc, _, _, _, _ => by simp [List.foldlM]
  | it :: rest, m, k, acc, hk, hkn, hcn, hnd => by
    have hmem : it ∉ acc := by
      have h1 := List.nodup_middle.mp hnd
      have h2 := (List.nodup_cons.mp h1).1
      exact fun hc => h2 (List.mem_append_left _ hc)
    have hit : cellNotna it = true := hcn it (by simp)
    have hstep : buildRow (m ++ [(k, BVal.blist acc)]) [k, it] =
        some (m ++ [(k, BVal.blist (acc ++ [it]))]) := by
      show handleLeaf (m ++ [(k, BVal.blist acc)]) k it = _
      simp [handleLeaf, hkn, alookup_append_last m k (BVal.blist acc) hk, hit, hmem,
        areplace_append_last m k (BVal.blist acc) (BVal.blist (acc ++ [it])) hk]
    have hrec := build_arr_fold rest m k (acc ++ [it]) hk hkn
      (fun c hc => hcn c (List.mem_cons_of_mem _ hc))
      (by rw [List.append_assoc]; exact hnd)
    rw [List.map_cons, foldlM_cons_some _ _ _ _ _ hstep, hrec, List.append_assoc]
    rfl

/-- Folding the rows of one list leaf starting from a map that does not yet
hold the key. -/
theorem build_arr : ∀ (cells : List Cell) (m : List (Cell × BVal)) (k : Cell),
    k ∉ keysOf m → cellNotna k = true → cells ≠ [] →
    (∀ c ∈ cells, cellNotna c = true) → cells.Nodup →
    List.foldlM buildRow m (cells.map (fun it => [k, it])) =
      some (m ++ [(k, BVal.blist cells)])
  | [], _, _, _, _, hne, _, _ => absurd rfl hne
  | it :: rest, m, k, hk, hkn, _, hcn, hnd => by
    have hit : cellNotna it = true := hcn it (by simp)
    have hstep : buildRow m [k, it] = some (m ++ [(k, BVal.blist [it])]) := by
      show handleLeaf m k it = _
      simp [handleLeaf, hkn, alookup_of_not_mem m k hk, hit]
    rw [List.map_cons, foldlM_cons_some _ _ _ _ _ hstep]
    exact build_arr_fold rest m k [it] hk hkn
      (fun c hc => hcn c (List.mem_cons_of_mem _ hc)) hnd

/-- Folding a batch of rows that all start with the same key, when that key
already maps to a sub-dict: the sub-dict evolves exactly as if the rows
(without their first cell) were folded into it on their own. -/
theorem build_under_key : ∀ (rows : List (List Cell)) (k : Cell)
    (m sub : List (Cell × BVal)), cellNotna k = true → k ∉ keysOf m →
    (∀ r ∈ rows, 2 ≤ r.length) →
    List.foldlM buildRow (m ++ [(k, BVal.bdict sub)]) (rows.map (fun r => k :: r)) =
      (List.foldlM buildRow sub rows).map (fun s => m ++ [(k, BVal.bdict s)])
  | [], k, m, sub, _, _, _ => by simp [List.foldlM]
  | r :: rest, k, m, sub, hkn, hk, hlen => by
    obtain ⟨p, lk, lv, rfl⟩ := exists_two_split r (hlen r (by simp))
    rw [List.map_cons]
    cases hres : buildStep sub p lk lv with
    | none =>
      have hrow : buildRow (m ++ [(k, BVal.bdict sub)]) (k :: (p ++ [lk, lv])) = none := by
        rw [buildRow_cons_eq]
        simp [buildStep, hkn, alookup_append_last m k (BVal.bdict sub) hk, hres]
      have hrow2 : buildRow sub (p ++ [lk, lv]) = none := by
        rw [buildRow_eq]
        exact hres
      rw [foldlM_cons_none _ _ _ _ hrow, foldlM_cons_none _ _ _ _ hrow2]
      rfl
    | some s' =>
      have hrow : buildRow (m ++ [(k, BVal.bdict sub)]) (k :: (p ++ [lk, lv])) =
          some (m ++ [(k, BVal.bdict s')]) := by
        rw [buildRow_cons_eq]
        simp [buildStep, hkn, alookup_append_last m k (BVal.bdict sub) hk, hres,
          areplace_append_last m k (BVal.bdict sub) (BVal.bdict s') hk]
      have hrow2 : buildRow sub (p ++ [lk, lv]) = some s' := by
        rw [buildRow_eq]
        exact hres
      rw [foldlM_cons_some _ _ _ _ _ hrow, foldlM_cons_some _ _ _ _ _ hrow2]
      exact build_under_key rest k m s' hkn hk (fun r h => hlen r (List.mem_cons_of_mem _ h))

/-- Folding a batch of rows that all start with the same fresh key: the
first row creates the sub-dict (`current_level[value] = {}`), the rest grow
it in place. -/
theorem build_fresh_key : ∀ (rows : List (List Cell)) (k : Cell) (m : List (Cell × BVal)),
    cellNotna k = true → k ∉ keysOf m → rows ≠ [] → (∀ r ∈ rows, 2 ≤ r.length) →
    List.foldlM buildRow m (rows.map (fun r => k :: r)) =
      (List.foldlM buildRow [] rows).map (fun s => m ++ [(k, BVal.bdict s)])
  | [], _, _, _, _, hne, _ => absurd rfl hne
  | r :: rest, k, m, hkn, hk, _, hlen => by
    obtain ⟨p, lk, lv, rfl⟩ := exists_two_split r (hlen r (by simp))
    rw [List.map_cons]
    cases hres : buildStep [] p lk lv with
    | none =>
      have hrow : buildRow m (k :: (p ++ [lk, lv])) = none := by
        rw [buildRow_cons_eq]
        simp [buildStep, hkn, alookup_of_not_mem m k hk, hres]
      have hrow2 : buildRow [] (p ++ [lk, lv]) = none := by
        rw [buildRow_eq]
        exact hres
      rw [foldlM_cons_none _ _ _ _ hrow, foldlM_cons_none _ _ _ _ hrow2]
      rfl
    | some s0 =>
      have hrow : buildRow m (k :: (p ++ [lk, lv])) =
          some (m ++ [(k, BVal.bdict s0)]) := by
        rw [buildRow_cons_eq]
        simp [buildStep, hkn, alookup_of_not_mem m k hk, hres]
      have hrow2 : buildRow [] (p ++ [lk, lv]) = some s0 := by
        rw [buildRow_eq]
        exact hres
      rw [foldlM_cons_some _ _ _ _ _ hrow, foldlM_cons_some _ _ _ _ _ hrow2]
      exact build_under_key rest k m s0 hkn hk (fun r h => hlen r (List.mem_cons_of_mem _ h))

/-! ## Rebuilding inverts flattening on well-shaped trees -/

mutual

theorem build_flatten_val : ∀ (k : String) (v : JVal) (d : Nat) (m : List (Cell × BVal)),
    shaped v d = true → Cell.str k ∉ keysOf m →
    List.foldlM buildRow m (flatten_val k v []) = some (m ++ [(Cell.str k, encodeVal v)])
  | k, JVal.arr items, d, m, h, hk => by
    simp only [shaped, Bool.and_eq_true, beq_iff_eq] at h
    obtain ⟨⟨⟨-, hne⟩, hsome⟩, hnd⟩ := h
    have hie : items.isEmpty = false := by simpa using hne
    have hrows : flatten_val k (JVal.arr items) [] =
        (items.map cellOfScalar).map (fun c => [Cell.str k, c]) := by
      simp [flatten_val, hie, List.map_map, Function.comp_def]
    have hcells_ne : items.map cellOfScalar ≠ [] := by
      simp only [ne_eq, List.map_eq_nil_iff]
      intro he
      rw [he] at hie
      simp at hie
    have hcells_nn : ∀ c ∈ items.map cellOfScalar, cellNotna c = true := by
      intro c hc
      obtain ⟨item, hitem, rfl⟩ := List.mem_map.mp hc
      have hs := List.all_eq_true.mp hsome item hitem
      cases item with
      | none => simp at hs
      | some s => simp [cellOfScalar, cellNotna]
    have hcells_nd : (items.map cellOfScalar).Nodup :=
      ((nodupB_iff_nodup items).mp hnd).map cellOfScalar_inj
    rw [hrows, build_arr (items.map cellOfScalar) m (Cell.str k) hk (by simp [cellNotna])
      hcells_ne hcells_nn hcells_nd]
    rfl
  | k, JVal.dict kvs, d, m, h, hk => by
    simp only [shaped, Bool.and_eq_true] at h
    obtain ⟨⟨hne, hnd⟩, hsv⟩ := h
    have hkvs_ne : kvs ≠ [] := by
      intro he
      rw [he] at hne
      simp at hne
    have hshift : flatten_val k (JVal.dict kvs) [] =
        (flatten_dict kvs []).map (fun r => Cell.str k :: r) := by
      show flatten_dict kvs ([] ++ [Cell.str k]) = _
      have hs := flatten_dict_shift kvs [Cell.str k] []
      simpa using hs
    have hrows_ne : flatten_dict kvs [] ≠ [] := flatten_dict_ne kvs (d - 1) [] hsv hkvs_ne
    have hrows_len : ∀ r ∈ flatten_dict kvs [], 2 ≤ r.length := by
      intro r hr
      have hl := flatten_dict_len kvs (d - 1) [] hsv r hr
      have hp : 1 ≤ d - 1 := by
        cases kvs with
        | nil => exact absurd rfl hkvs_ne
        | cons kv rest =>
          have h1 : shaped kv.2 (d - 1) = true := by
            have h2 := hsv
            simp only [shapedVals, Bool.and_eq_true] at h2
            exact h2.1
          exact shaped_pos kv.2 (d - 1) h1
      simp only [List.length_nil] at hl
      omega
    rw [hshift, build_fresh_key (flatten_dict kvs []) (Cell.str k) m (by simp [cellNotna])
      hk hrows_ne hrows_len,
      build_flatten_entries kvs (d - 1) [] hsv hnd (by simp [keysOf])]
    rfl
  | k, JVal.leaf s, d, m, h, hk => by simp [shaped] at h

theorem build_flatten_entries : ∀ (kvs : List (String × JVal)) (d : Nat)
    (m : List (Cell × BVal)), shapedVals kvs d = true →
    nodupB (kvs.map Prod.fst) = true → (∀ kv ∈ kvs, Cell.str kv.1 ∉ keysOf m) →
    List.foldlM buildRow m (flatten_dict kvs []) = some (m ++ encodeEntries kvs)
  | [], d, m, _, _, _ => by simp [flatten_dict, List.foldlM, encodeEntries]
  | (k, v) :: rest, d, m, hsv, hnd, hdisj => by
    simp only [shapedVals, Bool.and_eq_true] at hsv
    have hndL := (nodupB_iff_nodup _).mp hnd
    rw [List.map_cons] at hndL
    have hk_notin : k ∉ rest.map Prod.fst := (List.nodup_cons.mp hndL).1
    have hnd_rest : nodupB (rest.map Prod.fst) = true :=
      (nodupB_iff_nodup _).mpr (List.nodup_cons.mp hndL).2
    have hdisj2 : ∀ kv ∈ rest, Cell.str kv.1 ∉ keysOf (m ++ [(Cell.str k, encodeVal v)]) := by
      intro kv hkv hcmem
      simp only [keysOf, List.map_append, List.mem_append, List.map_cons, List.map_nil,
        List.mem_cons, List.not_mem_nil, or_false] at hcmem
      rcases hcmem with hcmem | hcmem
      · exact hdisj kv (List.mem_cons_of_mem _ hkv) (by simpa [keysOf] using hcmem)
      · have hk1 : kv.1 = k := by
          injection hcmem
        exact hk_notin (hk1 ▸ List.mem_map_of_mem Prod.fst hkv)
    simp only [flatten_dict]
    rw [foldlM_append_option, build_flatten_val k v d m hsv.1 (hdisj (k, v) (by simp))]
    show List.foldlM buildRow (m ++ [(Cell.str k, encodeVal v)]) (flatten_dict rest []) = _
    rw [build_flatten_entries rest d (m ++ [(Cell.str k, encodeVal v)]) hsv.2 hnd_rest hdisj2,
      List.append_assoc]
    rfl

end

/-! ## The whole pipeline on well-shaped trees -/

theorem max_row_len_const (rows : List (List Cell)) (n : Nat) (hne : rows ≠ [])
    (h : ∀ r ∈ rows, r.length = n) : max_row_len rows = some n := by
  cases rows with
  | nil => exact absurd rfl hne
  | cons r rs =>
    simp only [max_row_len, Option.some.injEq]
    have hmap : (r :: rs).map List.length = (r :: rs).map (fun _ => n) :=
      List.map_congr_left (fun a ha => h a ha)
    rw [hmap]
    exact foldr_max_map_const n (r :: rs) (by simp)

theorem pad_row_id (n : Nat) (r : List Cell) (h : r.length = n) : pad_row n r = r := by
  simp [pad_row, h]

theorem shapedVals_head_pos (kvs : List (String × JVal)) (d : Nat)
    (hsv : shapedVals kvs d = true) (hne : kvs ≠ []) : 1 ≤ d := by
  cases kvs with
  | nil => exact absurd rfl hne
  | cons kv rest =>
    have h1 : shaped kv.2 d = true := by
      simp only [shapedVals, Bool.and_eq_true] at hsv
      exact hsv.1
    exact shaped_pos kv.2 d h1

theorem flatten_len_shaped (kvs : List (String × JVal)) (D : Nat)
    (h : shaped (JVal.dict kvs) D = true) :
    ∀ r ∈ flatten_dict kvs [], r.length = D := by
  simp only [shaped, Bool.and_eq_true] at h
  obtain ⟨⟨hne, -⟩, hsv⟩ := h
  have hkvs_ne : kvs ≠ [] := by
    intro he
    rw [he] at hne
    simp at hne
  have hp := shapedVals_head_pos kvs (D - 1) hsv hkvs_ne
  intro r hr
  have hl := flatten_dict_len kvs (D - 1) [] hsv r hr
  simp only [List.length_nil] at hl
  omega

theorem dict_to_dataframe_shaped (kvs : List (String × JVal)) (D : Nat)
    (h : shaped (JVal.dict kvs) D = true) :
    dict_to_dataframe kvs = some (flatten_dict kvs []) := by
  have hlen := flatten_len_shaped kvs D h
  simp only [shaped, Bool.and_eq_true] at h
  obtain ⟨⟨hne, -⟩, hsv⟩ := h
  have hkvs_ne : kvs ≠ [] := by
    intro he
    rw [he] at hne
    simp at hne
  have hml : max_row_len (flatten_dict kvs []) = some D :=
    max_row_len_const _ D (flatten_dict_ne kvs (D - 1) [] hsv hkvs_ne) hlen
  simp only [dict_to_dataframe, hml]
  have hpad : (flatten_dict kvs []).map (pad_row D) = (flatten_dict kvs []).map id :=
    List.map_congr_left (fun a ha => pad_row_id D a (hlen a ha))
  rw [hpad, List.map_id]

/-- Round trip on well-shaped trees: flatten, pad into a frame, write with
the header and the merge pass, read back (drop the header, forward-fill),
rebuild — and recover the encoded original tree, keys and list elements in
their original order. -/
theorem roundtrip_shaped (kvs : List (String × JVal)) (D : Nat)
    (h : shaped (JVal.dict kvs) D = true) :
    (dict_to_dataframe kvs).bind (fun df => excel_to_dict (save_to_excel df)) =
      some (encodeEntries kvs) := by
  rw [dict_to_dataframe_shaped kvs D h]
  have hlen := flatten_len_shaped kvs D h
  simp only [shaped, Bool.and_eq_true] at h
  obtain ⟨⟨hne, hnd⟩, hsv⟩ := h
  have hnn : ∀ r ∈ flatten_dict kvs [], ∀ c ∈ r, c ≠ Cell.null :=
    flatten_dict_nonull kvs (D - 1) [] hsv (by simp)
  show build_dict (ffill_rows ((save_to_excel (flatten_dict kvs [])).drop 1)) = _
  rw [show (save_to_excel (flatten_dict kvs [])).drop 1 =
    merge_rows (flatten_dict kvs []) from rfl]
  rw [ffill_merge_id (flatten_dict kvs []) D hlen hnn]
  exact build_flatten_entries kvs (D - 1) [] hsv hnd (by simp [keysOf])

/-! ## Rebuilt trees never hold duplicates in a leaf list -/

mutual

def leafListsNodup : BVal → Bool
  | BVal.bdict m => leafListsNodupEntries m
  | BVal.blist l => nodupB l

def leafListsNodupEntries : List (Cell × BVal) → Bool
  | [] => true
  | kv :: rest => leafListsNodup kv.2 && leafListsNodupEntries rest

end

theorem nodupB_append_singleton {α : Type} [DecidableEq α] : ∀ (l : List α) (a : α),
    nodupB l = true → a ∉ l → nodupB (l ++ [a]) = true
  | [], a, _, _ => by simp [nodupB]
  | b :: t, a, h, hmem => by
    simp only [nodupB, Bool.and_eq_true] at h ⊢
    have hb : b ∉ t := by simpa using h.1
    have hba : b ≠ a := fun he => hmem (by simp [he])
    refine ⟨by simp [List.mem_append, hb, hba], ?_⟩
    exact nodupB_append_singleton t a h.2 (fun hc => hmem (List.mem_cons_of_mem _ hc))

theorem leafListsNodupEntries_append : ∀ (m m' : List (Cell × BVal)),
    leafListsNodupEntries (m ++ m') =
      (leafListsNodupEntries m && leafListsNodupEntries m')
  | [], m' => by simp [leafListsNodupEntries]
  | kv :: rest, m' => by
    show (leafListsNodup kv.2 && leafListsNodupEntries (rest ++ m')) = _
    rw [leafListsNodupEntries_append rest m', ← Bool.and_assoc]
    rfl

theorem alookup_leafListsNodup : ∀ (m : List (Cell × BVal)) (c : Cell) (v : BVal),
    leafListsNodupEntries m = true → alookup m c = some v → leafListsNodup v = true
  | [], c, v, _, hl => by simp [alookup] at hl
  | (k, w) :: rest, c, v, h, hl => by
    simp only [leafListsNodupEntries, Bool.and_eq_true] at h
    by_cases he : k = c
    · simp only [alookup, if_pos he, Option.some.injEq] at hl
      rw [← hl]
      exact h.1
    · simp only [alookup, if_neg he] at hl
      exact alookup_leafListsNodup rest c v h.2 hl

theorem areplace_leafListsNodup : ∀ (m : List (Cell × BVal)) (c : Cell) (nv : BVal),
    leafListsNodupEntries m = true → leafListsNodup nv = true →
    leafListsNodupEntries (areplace m c nv) = true
  | [], _, _, h, _ => h
  | (k, w) :: rest, c, nv, h, hnv => by
    simp only [leafListsNodupEntries, Bool.and_eq_true] at h
    by_cases he : k = c
    · simp only [areplace, if_pos he, leafListsNodupEntries, Bool.and_eq_true]
      exact ⟨hnv, h.2⟩
    · simp only [areplace, if_neg he, leafListsNodupEntries, Bool.and_eq_true]
      exact ⟨h.1, areplace_leafListsNodup rest c nv h.2 hnv⟩

theorem handleLeaf_leafListsNodup (m : List (Cell × BVal)) (lk lv : Cell)
    (m' : List (Cell × BVal)) (h : leafListsNodupEntries m = true)
    (hres : handleLeaf m lk lv = some m') : leafListsNodupEntries m' = true := by
  unfold handleLeaf at hres
  split at hres
  · injection hres with h2
    rw [← h2]
    exact h
  · split at hres
    · injection hres with h2
      rw [← h2, leafListsNodupEntries_append]
      simp only [h, Bool.true_and, leafListsNodupEntries, Bool.and_true]
      split
      · simp [nodupB, leafListsNodup]
      · simp [nodupB, leafListsNodup]
    · rename_i l hal
      injection hres with h2
      rw [← h2]
      refine areplace_leafListsNodup m lk _ h ?_
      have hl : nodupB l = true := alookup_leafListsNodup m lk (BVal.blist l) h hal
      show nodupB (if cellNotna lv = true ∧ lv ∉ l then l ++ [lv] else l) = true
      split
      · next hcond => exact nodupB_append_singleton l lv hl hcond.2
      · exact hl
    · rename_i dd hal
      split at hres
      · injection hres with h2
        rw [← h2]
        exact h
      · exact Option.noConfusion hres

theorem buildStep_leafListsNodup : ∀ (cs : List Cell) (m : List (Cell × BVal)) (lk lv : Cell)
    (m' : List (Cell × BVal)), leafListsNodupEntries m = true →
    buildStep m cs lk lv = some m' → leafListsNodupEntries m' = true
  | [], m, lk, lv, m', h, hres => handleLeaf_leafListsNodup m lk lv m' h hres
  | c :: cs, m, lk, lv, m', h, hres => by
    simp only [buildStep] at hres
    split at hres
    · exact buildStep_leafListsNodup cs m lk lv m' h hres
    · split at hres
      · split at hres
        · rename_i sub hsub
          injection hres with h2
          rw [← h2, leafListsNodupEntries_append]
          have hsubn := buildStep_leafListsNodup cs [] lk lv sub rfl hsub
          simp only [h, Bool.true_and, leafListsNodupEntries, Bool.and_true]
          exact hsubn
        · exact Option.noConfusion hres
      · rename_i sub hal
        split at hres
        · rename_i sub' hsub
          injection hres with h2
          rw [← h2]
          have hsubn0 : leafListsNodup (BVal.bdict sub) = true :=
            alookup_leafListsNodup m c _ h hal
          have hsubn := buildStep_leafListsNodup cs sub lk lv sub' hsubn0 hsub
          exact areplace_leafListsNodup m c _ h hsubn
        · exact Option.noConfusion hres
      · split at hres
        · injection hres with h2
          rw [← h2]
          exact h
        · exact Option.noConfusion hres

theorem buildRow_leafListsNodup (m : List (Cell × BVal)) (row : List Cell)
    (m' : List (Cell × BVal)) (h : leafListsNodupEntries m = true)
    (hres : buildRow m row = some m') : leafListsNodupEntries m' = true := by
  unfold buildRow at hres
  cases hrev : row.reverse with
  | nil =>
    rw [hrev] at hres
    exact Option.noConfusion hres
  | cons a t =>
    cases t with
    | nil =>
      rw [hrev] at hres
      exact Option.noConfusion hres
    | cons b t' =>
      rw [hrev] at hres
      exact buildStep_leafListsNodup t'.reverse m b a m' h hres

theorem build_fold_leafListsNodup : ∀ (rows : List (List Cell)) (m0 m' : List (Cell × BVal)),
    leafListsNodupEntries m0 = true → List.foldlM buildRow m0 rows = some m' →
    leafListsNodupEntries m' = true
  | [], m0, m', h, hres => by
    simp only [List.foldlM] at hres
    injection hres with h2
    rw [← h2]
    exact h
  | r :: rest, m0, m', h, hres => by
    cases hrow : buildRow m0 r with
    | none =>
      rw [foldlM_cons_none _ _ _ _ hrow] at hres
      exact Option.noConfusion hres
    | some m1 =>
      rw [foldlM_cons_some _ _ _ _ _ hrow] at hres
      exact build_fold_leafListsNodup rest m1 m' (buildRow_leafListsNodup m0 r m1 h hrow) hres

/-! ## The claim-side leaf conditions and the bridge to `shaped` -/

mutual

def goodNN : JVal → Bool
  | JVal.dict kvs => !kvs.isEmpty && nodupB (kvs.map Prod.fst) && goodNNs kvs
  | JVal.arr items => !items.isEmpty && items.all (fun i => i.isSome) && nodupB items
  | JVal.leaf _ => false

def goodNNs : List (String × JVal) → Bool
  | [] => true
  | kv :: rest => goodNN kv.2 && goodNNs rest

end

mutual

def goodLeaves : JVal → Bool
  | JVal.dict kvs => !kvs.isEmpty && nodupB (kvs.map Prod.fst) && goodLeavesVals kvs
  | JVal.arr items => !items.isEmpty && nodupB items
  | JVal.leaf _ => false

def goodLeavesVals : List (String × JVal) → Bool
  | [] => true
  | kv :: rest => goodLeaves kv.2 && goodLeavesVals rest

end

mutual

theorem leafDepths_ne_nil : ∀ (t : JVal) (d : Nat), leafDepths t d ≠ []
  | JVal.dict kvs, d => by
    cases hkvs : kvs with
    | nil => simp [leafDepths]
    | cons kv rest =>
      simp only [leafDepths, List.isEmpty_cons, Bool.false_eq_true, if_false]
      exact leafDepths_vals_ne_nil kv rest (d + 1)
  | JVal.arr items, d => by
    cases items with
    | nil => simp [leafDepths]
    | cons i rest => simp [leafDepths]
  | JVal.leaf s, d => by simp [leafDepths]

theorem leafDepths_vals_ne_nil : ∀ (kv : String × JVal) (rest : List (String × JVal)) (d : Nat),
    leafDepths_vals (kv :: rest) d ≠ []
  | kv, rest, d => by
    simp only [leafDepths_vals]
    intro heq
    exact leafDepths_ne_nil kv.2 d (List.append_eq_nil.mp heq).1

end

mutual

theorem leafDepths_ge : ∀ (t : JVal) (d : Nat) (x : Nat), x ∈ leafDepths t d → d ≤ x
  | JVal.dict kvs, d, x, hx => by
    cases kvs with
    | nil =>
      simp [leafDepths] at hx
      omega
    | cons kv rest =>
      simp only [leafDepths, List.isEmpty_cons, Bool.false_eq_true, if_false] at hx
      have := leafDepths_vals_ge (kv :: rest) (d + 1) x hx
      omega
  | JVal.arr items, d, x, hx => by
    cases items with
    | nil =>
      simp [leafDepths] at hx
      omega
    | cons i rest =>
      simp only [leafDepths, List.isEmpty_cons, Bool.false_eq_true, if_false,
        List.mem_map] at hx
      obtain ⟨-, -, rfl⟩ := hx
      omega
  | JVal.leaf s, d, x, hx => by
    simp [leafDepths] at hx
    omega

theorem leafDepths_vals_ge : ∀ (kvs : List (String × JVal)) (d : Nat) (x : Nat),
    x ∈ leafDepths_vals kvs d → d ≤ x
  | kv :: rest, d, x, hx => by
    simp only [leafDepths_vals, List.mem_append] at hx
    rcases hx with hx | hx
    · exact leafDepths_ge kv.2 d x hx
    · exact leafDepths_vals_ge rest d x hx
  | [], d, x, hx => by simp [leafDepths_vals] at hx

end

mutual

theorem shaped_of_uniform : ∀ (v : JVal) (c D : Nat), goodNN v = true →
    (∀ x ∈ leafDepths v c, x + 1 = c + D) → shaped v D = true
  | JVal.arr items, c, D, hg, hu => by
    simp only [goodNN, Bool.and_eq_true] at hg
    obtain ⟨⟨hne, hsome⟩, hnd⟩ := hg
    have hie : items.isEmpty = false := by simpa using hne
    cases items with
    | nil => simp at hie
    | cons i rest =>
      have hD : D = 1 := by
        have := hu c (by simp [leafDepths])
        omega
      subst hD
      simp [shaped, hne, hsome, hnd]
  | JVal.dict kvs, c, D, hg, hu => by
    simp only [goodNN, Bool.and_eq_true] at hg
    obtain ⟨⟨hne, hndk⟩, hgs⟩ := hg
    cases hkvs : kvs with
    | nil =>
      rw [hkvs] at hne
      simp at hne
    | cons kv rest =>
      subst hkvs
      have hu' : ∀ x ∈ leafDepths_vals (kv :: rest) (c + 1), x + 1 = c + D := by
        intro x hx
        exact hu x (by simpa [leafDepths] using hx)
      have hD2 : 2 ≤ D := by
        obtain ⟨x, hx⟩ := List.exists_mem_of_ne_nil _ (leafDepths_ne_nil kv.2 (c + 1))
        have h1 := leafDepths_ge kv.2 (c + 1) x hx
        have h2 := hu' x (by simp [leafDepths_vals, hx])
        omega
      have hvals : shapedVals (kv :: rest) (D - 1) = true := by
        refine shapedVals_of_uniform (kv :: rest) (c + 1) (D - 1) hgs ?_
        intro x hx
        have := hu' x hx
        omega
      simp only [shaped, Bool.and_eq_true]
      exact ⟨⟨hne, hndk⟩, hvals⟩
  | JVal.leaf s, c, D, hg, hu => by simp [goodNN] at hg

theorem shapedVals_of_uniform : ∀ (kvs : List (String × JVal)) (c D : Nat),
    goodNNs kvs = true → (∀ x ∈ leafDepths_vals kvs c, x + 1 = c + D) →
    shapedVals kvs D = true
  | [], c, D, _, _ => rfl
  | kv :: rest, c, D, hg, hu => by
    simp only [goodNNs, Bool.and_eq_true] at hg
    simp only [shapedVals, Bool.and_eq_true]
    constructor
    · refine shaped_of_uniform kv.2 c D hg.1 ?_
      intro x hx
      exact hu x (by simp [leafDepths_vals, List.mem_append, hx])
    · refine shapedVals_of_uniform rest c D hg.2 ?_
      intro x hx
      exact hu x (by simp [leafDepths_vals, List.mem_append, hx])

end

/-- A tree whose leaves are well-formed non-null lists and which passes the
converter's own uniform-depth validator is `shaped` at depth
`get_depth + 1`. -/
theorem shaped_of_validate (kvs : List (String × JVal))
    (hg : goodNN (JVal.dict kvs) = true)
    (hv : validate_json_depth (JVal.dict kvs) = true) :
    shaped (JVal.dict kvs) (get_depth (JVal.dict kvs) 0 + 1) = true := by
  refine shaped_of_uniform (JVal.dict kvs) 0 (get_depth (JVal.dict kvs) 0 + 1) hg ?_
  intro x hx
  have := (validate_iff_uniform (JVal.dict kvs)).mp hv x hx
  omega

/-! ## The claims -/

/-- C1 (counterexample): the tree `{"a": {"k": [null]}}` satisfies the
claim's hypotheses — the converter's own validator accepts it as
uniform-depth, and its only leaf is a non-empty duplicate-free list of
scalars — yet flattening, writing with the merge pass, reading back with
forward-fill and rebuilding does not return the tree: the `null` item is
dropped by `pd.notna(last_value)` in `_build_dict`, so the claim as stated
(over all scalars, `null` included) is false. -/
theorem c1_roundtrip_counterexample :
    goodLeaves (JVal.dict [("a", JVal.dict [("k", JVal.arr [none])])]) = true ∧
    validate_json_depth (JVal.dict [("a", JVal.dict [("k", JVal.arr [none])])]) = true ∧
    (dict_to_dataframe [("a", JVal.dict [("k", JVal.arr [none])])]).bind
        (fun df => excel_to_dict (save_to_excel df)) ≠
      some (encodeEntries [("a", JVal.dict [("k", JVal.arr [none])])]) :=
  ⟨by decide, by decide, by decide⟩

/-- C1 (amended): for every uniform-depth tree (one the source depth
validator accepts) whose leaves are all non-empty lists of *non-null*
scalars with no duplicate values within any list (`goodNN`; it also records
that Python dict keys are unique), converting to the tabular form and back
— flatten via `_flatten_dict`, pad into the frame, write with header and
merge pass, read back dropping the header with forward-fill, rebuild via
`_build_dict` — yields exactly the original tree (same keys, same list
contents in the same order; the model even preserves key order). -/
theorem c1_roundtrip_identity (kvs : List (String × JVal))
    (hleaves : goodNN (JVal.dict kvs) = true)
    (huniform : validate_json_depth (JVal.dict kvs) = true) :
    (dict_to_dataframe kvs).bind (fun df => excel_to_dict (save_to_excel df)) =
      some (encodeEntries kvs) :=
  roundtrip_shaped kvs (get_depth (JVal.dict kvs) 0 + 1)
    (shaped_of_validate kvs hleaves huniform)

/-- C1 (witness): the concrete tree
`{"fruit": {"citrus": ["orange", "lemon"]}}` satisfies both hypotheses and
round-trips to itself. -/
theorem c1_roundtrip_identity_witness :
    goodNN (JVal.dict [("fruit", JVal.dict
      [("citrus", JVal.arr [some "orange", some "lemon"])])]) = true ∧
    validate_json_depth (JVal.dict [("fruit", JVal.dict
      [("citrus", JVal.arr [some "orange", some "lemon"])])]) = true ∧
    (dict_to_dataframe [("fruit", JVal.dict
        [("citrus", JVal.arr [some "orange", some "lemon"])])]).bind
        (fun df => excel_to_dict (save_to_excel df)) =
      some (encodeEntries [("fruit", JVal.dict
        [("citrus", JVal.arr [some "orange", some "lemon"])])]) :=
  ⟨by decide, by decide,
    c1_roundtrip_identity [("fruit", JVal.dict
      [("citrus", JVal.arr [some "orange", some "lemon"])])] (by decide) (by decide)⟩

/-- C2: `json_to_excel` validates depth only on the `json_file` arm; a
converter given a non-uniform `data_dict` (`{"a": {"b": ["x"]}, "c":
["y"]}`, which the validator itself rejects) raises nothing and writes the
workbook, contradicting the method's own docstring ("Raises ValueError: If
JSON data is not consistent in depth") and the claim. -/
theorem c2_data_dict_skips_validation :
    validate_json_depth (JVal.dict [("a", JVal.dict [("b", JVal.arr [some "x"])]),
      ("c", JVal.arr [some "y"])]) = false ∧
    json_to_excel (fun _ => [])
      { json_file := none,
        data_dict := some [("a", JVal.dict [("b", JVal.arr [some "x"])]),
          ("c", JVal.arr [some "y"])],
        excel_file := some "out.xlsx", output_json_file := none } =
      Except.ok
        ({ json_file := none,
           data_dict := some [("a", JVal.dict [("b", JVal.arr [some "x"])]),
             ("c", JVal.arr [some "y"])],
           excel_file := some "out.xlsx", output_json_file := none },
         "out.xlsx",
         [[Cell.str "Level 1", Cell.str "Level 2", Cell.str "Level 3"],
          [Cell.str "a", Cell.str "b", Cell.str "x"],
          [Cell.str "c", Cell.str "y", Cell.null]]) :=
  ⟨by decide, by decide⟩

/-- C3 (counterexample): `{"A": {"B": []}}` does *not* flatten to zero
rows: the `elif isinstance(v, list) and v` guard fails for `[]`, so the
`else` branch emits the row `("A", "B", [])` with the empty list itself as
the terminal value. -/
theorem c3_counterexample :
    flatten_dict [("A", JVal.dict [("B", JVal.arr [])])] [] ≠ [] := by decide

/-- C3 (amended): flattening a key whose value is an empty list emits
exactly one row for that key, whose terminal value cell is the empty
Python list object; in particular `{"A": {"B": []}}` flattens to the single
row `("A", "B", [])` rather than to zero rows. -/
theorem c3_empty_list_row :
    (∀ (k : String) (parent_key : List Cell),
      flatten_val k (JVal.arr []) parent_key = [parent_key ++ [Cell.str k, Cell.elist]]) ∧
    flatten_dict [("A", JVal.dict [("B", JVal.arr [])])] [] =
      [[Cell.str "A", Cell.str "B", Cell.elist]] :=
  ⟨fun _ _ => rfl, by decide⟩

/-- C3 (witness): the general part instantiated at key "B" under parent
"A". -/
theorem c3_empty_list_row_witness :
    flatten_val "B" (JVal.arr []) [Cell.str "A"] =
      [[Cell.str "A"] ++ [Cell.str "B", Cell.elist]] :=
  c3_empty_list_row.1 "B" [Cell.str "A"]

/-- C4 (counterexample): on the rows
`[("A","x","v1"), ("A","x","v2"), ("A","y","v3")]` the "A" column is one
contiguous equal-valued run spanning all three rows, so the merge pass
blanks it in rows 2 *and* 3; the artifact the claim predicts (the "A"
column merged over rows 1-2 only, leaving "A" visible in row 3) is not
what is produced. -/
theorem c4_counterexample :
    merge_rows [[Cell.str "A", Cell.str "x", Cell.str "v1"],
                [Cell.str "A", Cell.str "x", Cell.str "v2"],
                [Cell.str "A", Cell.str "y", Cell.str "v3"]] ≠
      [[Cell.str "A", Cell.str "x", Cell.str "v1"],
       [Cell.null, Cell.null, Cell.str "v2"],
       [Cell.str "A", Cell.str "y", Cell.str "v3"]] ∧
    merge_rows [[Cell.str "A", Cell.str "x", Cell.str "v1"],
                [Cell.str "A", Cell.str "x", Cell.str "v2"],
                [Cell.str "A", Cell.str "y", Cell.str "v3"]] =
      [[Cell.str "A", Cell.str "x", Cell.str "v1"],
       [Cell.null, Cell.null, Cell.str "v2"],
       [Cell.null, Cell.str "y", Cell.str "v3"]] :=
  ⟨by decide, by decide⟩

/-- C4 (amended): the carry-forward encode (per-column blanking of the
repeats inside contiguous equal-valued runs; singletons untouched) composed
with the decode (strip header, forward-fill each column) is an exact
inverse on rectangular grids without absent cells; for the example rows the
artifact merges the "A" column over rows 1-3 and the "x" column over rows
1-2, and decoding the artifact reproduces exactly the three original rows,
no value lost or duplicated. -/
theorem c4_carry_forward :
    (∀ (g : List (List Cell)) (n : Nat), (∀ r ∈ g, r.length = n) →
      (∀ r ∈ g, ∀ c ∈ r, c ≠ Cell.null) → ffill_rows (merge_rows g) = g) ∧
    save_to_excel [[Cell.str "A", Cell.str "x", Cell.str "v1"],
                   [Cell.str "A", Cell.str "x", Cell.str "v2"],
                   [Cell.str "A", Cell.str "y", Cell.str "v3"]] =
      [[Cell.str "Level 1", Cell.str "Level 2", Cell.str "Level 3"],
       [Cell.str "A", Cell.str "x", Cell.str "v1"],
       [Cell.null, Cell.null, Cell.str "v2"],
       [Cell.null, Cell.str "y", Cell.str "v3"]] ∧
    ffill_rows ((save_to_excel [[Cell.str "A", Cell.str "x", Cell.str "v1"],
                                [Cell.str "A", Cell.str "x", Cell.str "v2"],
                                [Cell.str "A", Cell.str "y", Cell.str "v3"]]).drop 1) =
      [[Cell.str "A", Cell.str "x", Cell.str "v1"],
       [Cell.str "A", Cell.str "x", Cell.str "v2"],
       [Cell.str "A", Cell.str "y", Cell.str "v3"]] :=
  ⟨ffill_merge_id, by decide, by decide⟩

/-- C4 (witness): the general inverse applied to a concrete two-row grid. -/
theorem c4_carry_forward_witness :
    ffill_rows (merge_rows [[Cell.str "q"], [Cell.str "q"]]) =
      [[Cell.str "q"], [Cell.str "q"]] :=
  c4_carry_forward.1 [[Cell.str "q"], [Cell.str "q"]] 1 (by decide) (by decide)

/-- C5: the post-read validator does not accept exactly the uniform-row
tables: it receives the rebuilt nested dict and, through
`DataFrame.from_dict(..., orient='index')`, compares the per-top-level-key
counts of non-absent second-level entries instead of table row depths.  The
table `[("A","x","v1"), ("B","y","v2"), ("B","z","v3")]` has every row at
depth 3 (count of non-absent cells), yet the whole `excel_to_json` run on
it raises `DepthMismatch` because top key "A" has one child and "B" has
two.  This contradicts the function's own docstring ("Validate that all
rows in the Excel data have the same depth"). -/
theorem c5_excel_validator_not_row_depth :
    [[Cell.str "A", Cell.str "x", Cell.str "v1"],
     [Cell.str "B", Cell.str "y", Cell.str "v2"],
     [Cell.str "B", Cell.str "z", Cell.str "v3"]].map spec_row_depth = [3, 3, 3] ∧
    build_dict [[Cell.str "A", Cell.str "x", Cell.str "v1"],
                [Cell.str "B", Cell.str "y", Cell.str "v2"],
                [Cell.str "B", Cell.str "z", Cell.str "v3"]] =
      some [(Cell.str "A", BVal.bdict [(Cell.str "x", BVal.blist [Cell.str "v1"])]),
            (Cell.str "B", BVal.bdict [(Cell.str "y", BVal.blist [Cell.str "v2"]),
                                       (Cell.str "z", BVal.blist [Cell.str "v3"])])] ∧
    validate_excel_depth
      [(Cell.str "A", BVal.bdict [(Cell.str "x", BVal.blist [Cell.str "v1"])]),
       (Cell.str "B", BVal.bdict [(Cell.str "y", BVal.blist [Cell.str "v2"]),
                                  (Cell.str "z", BVal.blist [Cell.str "v3"])])] = some false ∧
    excel_to_json
      (fun _ => [[Cell.str "Level 1", Cell.str "Level 2", Cell.str "Level 3"],
                 [Cell.str "A", Cell.str "x", Cell.str "v1"],
                 [Cell.str "B", Cell.str "y", Cell.str "v2"],
                 [Cell.str "B", Cell.str "z", Cell.str "v3"]])
      { json_file := none, data_dict := none, excel_file := some "in.xlsx",
        output_json_file := some "out.json" } = Except.error PyErr.depthMismatch :=
  ⟨by decide, by decide, by decide, by decide⟩

/-- C6: the pre-write depth validator computes `max_depth` as the greatest
depth reached by any leaf (dict nesting adds 1 per level, list elements add
nothing — `get_depth` equals the maximum of `leafDepths`), accepts exactly
when every leaf reaches exactly that depth, and in particular rejects every
tree holding one leaf at depth 2 and another at depth 3. -/
theorem c6_json_validator_characterisation :
    (∀ (t : JVal) (d : Nat), get_depth t d = (leafDepths t d).foldr max 0) ∧
    (∀ t : JVal, validate_json_depth t = true ↔
      ∀ x ∈ leafDepths t 0, x = get_depth t 0) ∧
    (∀ t : JVal, 2 ∈ leafDepths t 0 → 3 ∈ leafDepths t 0 →
      validate_json_depth t = false) := by
  refine ⟨get_depth_eq_max, validate_iff_uniform, ?_⟩
  intro t h2 h3
  cases hv : validate_json_depth t with
  | false => rfl
  | true =>
    have h := (validate_iff_uniform t).mp hv
    have e2 := h 2 h2
    have e3 := h 3 h3
    omega

/-- C6 (witness): `{"a": {"b": {"e": "x"}}, "c": {"d": "y"}}` has one
branch of depth 3 and one of depth 2 and is rejected. -/
theorem c6_json_validator_characterisation_witness :
    validate_json_depth (JVal.dict
      [("a", JVal.dict [("b", JVal.dict [("e", JVal.leaf (some "x"))])]),
       ("c", JVal.dict [("d", JVal.leaf (some "y"))])]) = false :=
  c6_json_validator_characterisation.2.2
    (JVal.dict [("a", JVal.dict [("b", JVal.dict [("e", JVal.leaf (some "x"))])]),
      ("c", JVal.dict [("d", JVal.leaf (some "y"))])])
    (by decide) (by decide)

/-- C7: rebuilding de-duplicates terminal values per leaf list keeping
first-seen order: the duplicate rows `[("A","x","v1"), ("A","x","v1")]`
rebuild into `{"A": {"x": ["v1"]}}`, and in general every leaf list of any
successful `_build_dict` result is duplicate-free. -/
theorem c7_rebuild_dedup :
    build_dict [[Cell.str "A", Cell.str "x", Cell.str "v1"],
                [Cell.str "A", Cell.str "x", Cell.str "v1"]] =
      some [(Cell.str "A", BVal.bdict [(Cell.str "x", BVal.blist [Cell.str "v1"])])] ∧
    (∀ (rows : List (List Cell)) (m : List (Cell × BVal)),
      build_dict rows = some m → leafListsNodupEntries m = true) :=
  ⟨by decide, fun rows m h => build_fold_leafListsNodup rows [] m rfl h⟩

/-- C7 (witness): the general duplicate-freedom applied to the rebuilt map
of the duplicate rows. -/
theorem c7_rebuild_dedup_witness :
    leafListsNodupEntries
      [(Cell.str "A", BVal.bdict [(Cell.str "x", BVal.blist [Cell.str "v1"])])] = true :=
  c7_rebuild_dedup.2
    [[Cell.str "A", Cell.str "x", Cell.str "v1"],
     [Cell.str "A", Cell.str "x", Cell.str "v1"]]
    [(Cell.str "A", BVal.bdict [(Cell.str "x", BVal.blist [Cell.str "v1"])])]
    (by decide)

/-- C8: a conversion call missing its required paths fails with the
`MissingArgument` `ValueError` before any file access — the result is the
error for *every* possible file-system content (`parse` / `read_excel` are
never consulted), and no default is substituted.  For `json_to_excel` the
required combination is `json_file` or else both `data_dict` and
`excel_file`; for `excel_to_json` it is both `excel_file` and
`output_json_file`. -/
theorem c8_missing_argument :
    (∀ (parse : String → List (String × JVal)) (cv : Converter),
      cv.json_file = none → cv.data_dict = none ∨ cv.excel_file = none →
      json_to_excel parse cv = Except.error PyErr.missingArgument) ∧
    (∀ (read_excel : String → List (List Cell)) (cv : Converter),
      cv.excel_file = none ∨ cv.output_json_file = none →
      excel_to_json read_excel cv = Except.error PyErr.missingArgument) := by
  constructor
  · intro parse cv hjf hmiss
    unfold json_to_excel
    rw [hjf]
    show json_to_excel_data cv = Except.error PyErr.missingArgument
    unfold json_to_excel_data
    rcases hmiss with hm | hm
    · rw [hm]
    · rw [hm]
      cases cv.data_dict <;> rfl
  · intro read_excel cv hmiss
    unfold excel_to_json
    rcases hmiss with hm | hm
    · rw [hm]
      rfl
    · rw [hm]
      cases cv.excel_file with
      | none => rfl
      | some s => simp [truthyS]

/-- C8 (witness): a converter with only an output path set fails both
calls with `MissingArgument`. -/
theorem c8_missing_argument_witness :
    json_to_excel (fun _ => [])
      { json_file := none, data_dict := none, excel_file := some "out.xlsx",
        output_json_file := none } = Except.error PyErr.missingArgument ∧
    excel_to_json (fun _ => [])
      { json_file := none, data_dict := none, excel_file := none,
        output_json_file := some "out.json" } = Except.error PyErr.missingArgument :=
  ⟨c8_missing_argument.1 (fun _ => [])
      { json_file := none, data_dict := none, excel_file := some "out.xlsx",
        output_json_file := none } rfl (Or.inl rfl),
   c8_missing_argument.2 (fun _ => [])
      { json_file := none, data_dict := none, excel_file := none,
        output_json_file := some "out.json" } (Or.inl rfl)⟩

/-- C9 (counterexample): `json_file` set to the empty string is falsy in
Python, so `if self.json_file:` takes the `data_dict` arm: the
caller-supplied `excel_file` is used as the output path rather than being
overwritten with the stem-derived name, and the instance fields are left
alone.  The claim as stated over every set `json_file` is therefore
false. -/
theorem c9_counterexample :
    json_to_excel (fun _ => [])
      { json_file := some "", data_dict := some [("k", JVal.arr [some "v"])],
        excel_file := some "custom.xlsx", output_json_file := none } =
      Except.ok
        ({ json_file := some "", data_dict := some [("k", JVal.arr [some "v"])],
           excel_file := some "custom.xlsx", output_json_file := none },
         "custom.xlsx",
         [[Cell.str "Level 1", Cell.str "Level 2"],
          [Cell.str "k", Cell.str "v"]]) ∧
    "custom.xlsx" ≠ generate_excel_filename "" :=
  ⟨by decide, by decide⟩

/-- C9 (amended): whenever `json_to_excel` is called with a *non-empty*
`json_file` and the call succeeds, the caller-supplied `excel_file` is
ignored and overwritten: the output path is the `json_file`'s stem with an
`.xlsx` suffix, and the instance's `data_dict` and `excel_file` fields are
replaced as a side effect (the other two fields are untouched). -/
theorem c9_json_file_overrides (parse : String → List (String × JVal))
    (cv : Converter) (p : String) (hjf : cv.json_file = some p) (hp : p ≠ "")
    (cv' : Converter) (ex : String) (art : List (List Cell))
    (hres : json_to_excel parse cv = Except.ok (cv', ex, art)) :
    ex = generate_excel_filename p ∧
    cv'.excel_file = some (generate_excel_filename p) ∧
    cv'.data_dict = some (parse p) ∧
    cv'.json_file = cv.json_file ∧ cv'.output_json_file = cv.output_json_file := by
  unfold json_to_excel at hres
  split at hres
  · rename_i p1 heq
    rw [hjf] at heq
    injection heq with hpe
    subst hpe
    rw [if_neg hp] at hres
    split at hres
    · unfold json_to_excel_write at hres
      split at hres
      · simp only [Except.ok.injEq, Prod.mk.injEq] at hres
        obtain ⟨hcv, hex, -⟩ := hres
        rw [← hcv, ← hex]
        simp [hjf]
      · exact Except.noConfusion hres
    · exact Except.noConfusion hres
  · rename_i heq
    rw [hjf] at heq
    exact Option.noConfusion heq

/-- C9 (witness): converting `c.json` with a caller-supplied `excel_file`
ends up writing to `c.xlsx` and updating the instance fields. -/
theorem c9_json_file_overrides_witness :
    "c.xlsx" = generate_excel_filename "c.json" ∧
    some (generate_excel_filename "c.json") = some (generate_excel_filename "c.json") ∧
    some [("k", JVal.arr [(some "v" : Scalar)])] =
      some ((fun _ => [("k", JVal.arr [some "v"])]) "c.json") ∧
    some "c.json" = some "c.json" ∧ (none : Option String) = none := by
  have h := c9_json_file_overrides (fun _ => [("k", JVal.arr [some "v"])])
    { json_file := some "c.json", data_dict := none, excel_file := some "ignored.xlsx",
      output_json_file := none } "c.json" rfl (by decide)
    { json_file := some "c.json", data_dict := some [("k", JVal.arr [some "v"])],
      excel_file := some "c.xlsx", output_json_file := none } "c.xlsx"
    [[Cell.str "Level 1", Cell.str "Level 2"], [Cell.str "k", Cell.str "v"]] (by decide)
  exact h

/-- C10: for the empty mapping `{}` as source, flattening yields zero rows
and `max(len(row) for row in rows)` is taken over an empty sequence, so
`json_to_excel` fails with the unhandled builtin `ValueError` from `max()`
— not with an empty table and not with a taxonomy error (`MissingArgument`
or `DepthMismatch`; the depth validator itself accepts `{}`) — and no
output is produced.  The same happens whether `{}` arrives as `data_dict`
or is parsed from `json_file`. -/
theorem c10_empty_mapping_crash :
    flatten_dict [] [] = [] ∧
    validate_json_depth (JVal.dict []) = true ∧
    (∀ (parse : String → List (String × JVal)),
      json_to_excel parse
        { json_file := none, data_dict := some [], excel_file := some "out.xlsx",
          output_json_file := none } = Except.error PyErr.builtinMaxEmpty) ∧
    json_to_excel (fun _ => [])
      { json_file := some "empty.json", data_dict := none, excel_file := none,
        output_json_file := none } = Except.error PyErr.builtinMaxEmpty ∧
    PyErr.builtinMaxEmpty ≠ PyErr.missingArgument ∧
    PyErr.builtinMaxEmpty ≠ PyErr.depthMismatch :=
  ⟨rfl, by decide, fun _ => rfl, by decide, by decide, by decide⟩

/-- C10 (witness): the `data_dict` arm fails the same way whatever the
file-system stub would have returned. -/
theorem c10_empty_mapping_crash_witness :
    json_to_excel (fun _ => [("z", JVal.arr [some "w"])])
      { json_file := none, data_dict := some [], excel_file := some "out.xlsx",
        output_json_file := none } = Except.error PyErr.builtinMaxEmpty :=
  c10_empty_mapping_crash.2.2.1 (fun _ => [("z", JVal.arr [some "w"])])
